import Mathlib

/-!
# Verification of the pump.fun launch-stream extractor

This file gives a shallow embedding of the two core components of the
repository and proves the spec's claims about them:

* `parse_create_token_data` (src/utils.rs): the base64 + borsh-style payload
  decoder producing a `CreateTokenInfo`.
* `parse_instruction` (src/main.rs): the depth-counting log correlator.

Modelling conventions:

* Rust byte buffers (`Vec<u8>`, `&[u8]`) are `List Nat` with every element
  `< 256` where it matters; machine arithmetic on `usize` is `Nat`
  (the Rust code never overflows: all cursor values stay bounded by the
  buffer length plus a 32-bit length field, far below `usize::MAX`).
* Rust `String` values that the decoder produces are represented by their
  UTF-8 byte sequences (`List Nat`): a Rust `String` is exactly a byte
  vector that passed UTF-8 validation, and Rust string equality is byte
  equality.  Log lines handled by the correlator are Lean `String`s.
* Fallible Rust operations return `Option`/`Except`; the places where the
  Rust code could panic (`copy_from_slice` inside `read_u32`, the
  `Pubkey::from_str(..).unwrap()` calls) are modelled by an explicit
  `panicked` outcome, so that "never panics" is a provable statement.
* The external library functions used by the source (base64 STANDARD
  engine, bs58 encode/decode, solana `Pubkey::from_str`, Rust
  `str::contains`/`starts_with`/`trim_start_matches`, UTF-8 validation of
  `String::from_utf8`) are modelled faithfully by executable definitions
  below; each carries a comment naming what it models.
-/

/-! ## Small list helpers -/

theorem drop_len_append {α : Type} (x y : List α) : (x ++ y).drop x.length = y := by
  induction x with
  | nil => rfl
  | cons a t ih => simp [ih]

theorem take_len_append {α : Type} (x y : List α) : (x ++ y).take x.length = x := by
  induction x with
  | nil => rfl
  | cons a t ih => simp [ih]

theorem drop_append_le {α : Type} (x y : List α) (n : Nat) (h : n ≤ x.length) :
    (x ++ y).drop n = x.drop n ++ y := by
  induction x generalizing n with
  | nil => simp at h; simp [h]
  | cons a t ih =>
    cases n with
    | zero => simp
    | succ m => simpa using ih m (by simpa using h)

theorem take_append_le {α : Type} (x y : List α) (n : Nat) (h : n ≤ x.length) :
    (x ++ y).take n = x.take n := by
  induction x generalizing n with
  | nil => simp at h; simp [h]
  | cons a t ih =>
    cases n with
    | zero => simp
    | succ m => simpa using ih m (by simpa using h)

theorem take_append_big {α : Type} (x y : List α) (n : Nat) (h : x.length ≤ n) :
    (x ++ y).take n = x ++ y.take (n - x.length) := by
  induction x generalizing n with
  | nil => simp
  | cons a t ih =>
    cases n with
    | zero => simp at h
    | succ m => simpa using ih m (by simpa using h)

/-! ## UTF-8 byte size of characters and strings

Models Rust `char::len_utf8` / `str::len` (the byte length of the string's
UTF-8 encoding), used by the correlator's `data.len()` comparison. -/

def charBytes (c : Char) : Nat :=
  if c.val < 0x80 then 1
  else if c.val < 0x800 then 2
  else if c.val < 0x10000 then 3
  else 4

def byteLen (l : List Char) : Nat :=
  match l with
  | [] => 0
  | c :: cs => charBytes c + byteLen cs

/-- Model of Rust `str::len`: the UTF-8 byte length of a string. -/
def rustLen (s : String) : Nat := byteLen s.data

theorem charBytes_pos (c : Char) : 0 < charBytes c := by
  unfold charBytes
  split <;> [exact Nat.one_pos; split <;> [exact Nat.zero_lt_two; split <;> simp]]

theorem rustLen_eq_zero {s : String} (h : rustLen s = 0) : s = "" := by
  cases s with
  | mk data =>
    cases data with
    | nil => rfl
    | cons c cs =>
      exfalso
      have := charBytes_pos c
      simp [rustLen, byteLen] at h
      omega

/-! ## Substring tests

`hasPre pat l` models Rust `str::starts_with` (pattern at the front),
`hasSub pat l` models Rust `str::contains` (pattern occurs somewhere). -/

def hasPre : List Char → List Char → Bool
  | [], _ => true
  | _ :: _, [] => false
  | p :: ps, c :: cs => p == c && hasPre ps cs

def hasSub (pat : List Char) : List Char → Bool
  | [] => hasPre pat []
  | c :: cs => hasPre pat (c :: cs) || hasSub pat cs

/-- Model of Rust `str::starts_with(pat)`. -/
def startsWithStr (s pat : String) : Bool := hasPre pat.data s.data

/-- Model of Rust `str::contains(pat)`. -/
def containsStr (s pat : String) : Bool := hasSub pat.data s.data

theorem hasPre_length {pat l : List Char} (h : hasPre pat l = true) :
    pat.length ≤ l.length := by
  induction pat generalizing l with
  | nil => simp
  | cons p ps ih =>
    cases l with
    | nil => simp [hasPre] at h
    | cons c cs =>
      simp [hasPre] at h
      simpa using ih h.2

theorem hasPre_append (pat rest : List Char) : hasPre pat (pat ++ rest) = true := by
  induction pat with
  | nil => rfl
  | cons p ps ih => simp [hasPre, ih]

/-! ## `trim_start_matches`

Rust `str::trim_start_matches(pat)` removes **all leading repetitions** of
the pattern, not just one.  Fuel-based structural recursion (each round
removes at least one character, so `l.length` rounds suffice); this keeps
the definition kernel-evaluable. -/

def trimAllFuel (pat : List Char) : Nat → List Char → List Char
  | 0, l => l
  | fuel + 1, l =>
    if pat ≠ [] ∧ hasPre pat l = true then trimAllFuel pat fuel (l.drop pat.length)
    else l

/-- Model of Rust `str::trim_start_matches(pat)` on char lists. -/
def trimAll (pat l : List Char) : List Char := trimAllFuel pat l.length l

/-- Model of Rust `s.trim_start_matches(pat)`. -/
def trimStartMatchesStr (s pat : String) : String := ⟨trimAll pat.data s.data⟩

theorem trimAllFuel_congr (pat : List Char) (f₁ f₂ : Nat) :
    ∀ l : List Char, l.length ≤ f₁ → l.length ≤ f₂ →
      trimAllFuel pat f₁ l = trimAllFuel pat f₂ l := by
  induction f₁ generalizing f₂ with
  | zero =>
    intro l h1 _
    have hl : l = [] := List.length_eq_zero.mp (Nat.le_zero.mp h1)
    subst hl
    cases f₂ with
    | zero => rfl
    | succ g =>
      simp only [trimAllFuel]
      split
      · rename_i hc
        exfalso
        have := hasPre_length hc.2
        have : pat = [] := List.length_eq_zero.mp (Nat.le_zero.mp (by simpa using this))
        exact hc.1 this
      · rfl
  | succ g1 ih =>
    intro l h1 h2
    cases f₂ with
    | zero =>
      have hl : l = [] := List.length_eq_zero.mp (Nat.le_zero.mp h2)
      subst hl
      simp only [trimAllFuel]
      split
      · rename_i hc
        exfalso
        have := hasPre_length hc.2
        have : pat = [] := List.length_eq_zero.mp (Nat.le_zero.mp (by simpa using this))
        exact hc.1 this
      · rfl
    | succ g2 =>
      simp only [trimAllFuel]
      split
      · rename_i hc
        have hplen : 0 < pat.length := by
          cases hp : pat with
          | nil => exact absurd hp hc.1
          | cons a t => simp [hp]
        have hle : pat.length ≤ l.length := hasPre_length hc.2
        exact ih g2 (l.drop pat.length) (by simp; omega) (by simp; omega)
      · rfl

theorem trimAll_step (pat l : List Char) (hp : pat ≠ []) (h : hasPre pat l = true) :
    trimAll pat l = trimAll pat (l.drop pat.length) := by
  have hplen : 0 < pat.length := by
    cases hq : pat with
    | nil => exact absurd hq hp
    | cons a t => simp [hq]
  have hle : pat.length ≤ l.length := hasPre_length h
  unfold trimAll
  cases hl : l.length with
  | zero =>
    exfalso
    have : l = [] := List.length_eq_zero.mp hl
    subst this
    simp only [List.length_nil] at hle
    omega
  | succ n =>
    simp only [trimAllFuel]
    rw [if_pos ⟨hp, h⟩]
    exact trimAllFuel_congr pat n (l.drop pat.length).length (l.drop pat.length)
      (by simp; omega) (le_refl _)

theorem trimAll_no (pat l : List Char) (h : ¬(pat ≠ [] ∧ hasPre pat l = true)) :
    trimAll pat l = l := by
  unfold trimAll
  cases hl : l.length with
  | zero => rfl
  | succ n => simp only [trimAllFuel]; rw [if_neg h]

theorem trimAll_append (pat rest : List Char) (hp : pat ≠ []) :
    trimAll pat (pat ++ rest) = trimAll pat rest := by
  rw [trimAll_step pat (pat ++ rest) hp (hasPre_append pat rest), drop_len_append]

/-! ## Base64 (STANDARD alphabet, canonical padding)

Models the `base64::engine::general_purpose::STANDARD` engine used by the
source: encoding emits padded output, decoding requires canonical padding
and zero trailing bits and rejects characters outside the alphabet. -/

def b64Alphabet : List Char :=
  "ABCDEFGHIJKLMNOPQRSTUVWXYZabcdefghijklmnopqrstuvwxyz0123456789+/".data

def b64EncChar (v : Nat) : Char := b64Alphabet.getD v 'A'

def b64DecVal (c : Char) : Option Nat :=
  if 'A' ≤ c ∧ c ≤ 'Z' then some (c.toNat - 65)
  else if 'a' ≤ c ∧ c ≤ 'z' then some (c.toNat - 97 + 26)
  else if '0' ≤ c ∧ c ≤ '9' then some (c.toNat - 48 + 52)
  else if c = '+' then some 62
  else if c = '/' then some 63
  else none

/-- Model of base64 STANDARD encoding (on bytes, producing chars). -/
def b64Encode : List Nat → List Char
  | [] => []
  | [a] => [b64EncChar (a / 4), b64EncChar (a % 4 * 16), '=', '=']
  | [a, b] => [b64EncChar (a / 4), b64EncChar (a % 4 * 16 + b / 16),
               b64EncChar (b % 16 * 4), '=']
  | a :: b :: c :: rest =>
      b64EncChar (a / 4) :: b64EncChar (a % 4 * 16 + b / 16) ::
      b64EncChar (b % 16 * 4 + c / 64) :: b64EncChar (c % 64) :: b64Encode rest

/-- Decoding of a final (possibly padded) base64 block; canonical padding,
trailing bits must be zero (the STANDARD engine's settings). -/
def b64DecLast (c1 c2 c3 c4 : Char) : Option (List Nat) :=
  if c3 = '=' ∧ c4 = '=' then
    match b64DecVal c1, b64DecVal c2 with
    | some v1, some v2 =>
        if v2 % 16 = 0 then some [v1 * 4 + v2 / 16] else none
    | _, _ => none
  else if c4 = '=' then
    match b64DecVal c1, b64DecVal c2, b64DecVal c3 with
    | some v1, some v2, some v3 =>
        if v3 % 4 = 0 then some [v1 * 4 + v2 / 16, v2 % 16 * 16 + v3 / 4] else none
    | _, _, _ => none
  else
    match b64DecVal c1, b64DecVal c2, b64DecVal c3, b64DecVal c4 with
    | some v1, some v2, some v3, some v4 =>
        some [v1 * 4 + v2 / 16, v2 % 16 * 16 + v3 / 4, v3 % 4 * 64 + v4]
    | _, _, _, _ => none

/-- Model of base64 STANDARD decoding: input must be 4-char blocks, `=`
only in the final block in canonical positions. -/
def b64Decode : List Char → Option (List Nat)
  | [] => some []
  | c1 :: c2 :: c3 :: c4 :: rest =>
    if rest.isEmpty then b64DecLast c1 c2 c3 c4
    else
      match b64DecVal c1, b64DecVal c2, b64DecVal c3, b64DecVal c4, b64Decode rest with
      | some v1, some v2, some v3, some v4, some bs =>
          some ((v1 * 4 + v2 / 16) :: (v2 % 16 * 16 + v3 / 4) :: (v3 % 4 * 64 + v4) :: bs)
      | _, _, _, _, _ => none
  | _ => none

theorem b64_dec_enc_fin : ∀ v : Fin 64, b64DecVal (b64EncChar v.val) = some v.val := by
  decide

theorem b64_dec_enc {v : Nat} (h : v < 64) : b64DecVal (b64EncChar v) = some v :=
  b64_dec_enc_fin ⟨v, h⟩

theorem b64_enc_ne_pad_fin : ∀ v : Fin 64, b64EncChar v.val ≠ '=' := by
  decide

theorem b64_enc_ne_pad {v : Nat} (h : v < 64) : b64EncChar v ≠ '=' :=
  b64_enc_ne_pad_fin ⟨v, h⟩

theorem b64Encode_ne_nil {l : List Nat} (h : l ≠ []) : b64Encode l ≠ [] := by
  match l with
  | [] => exact absurd rfl h
  | [a] => simp [b64Encode]
  | [a, b] => simp [b64Encode]
  | a :: b :: c :: rest => simp [b64Encode]


theorem b64_roundtrip : ∀ (l : List Nat), (∀ x ∈ l, x < 256) →
    b64Decode (b64Encode l) = some l := by
  have main : ∀ n (l : List Nat), l.length ≤ n → (∀ x ∈ l, x < 256) →
      b64Decode (b64Encode l) = some l := by
    intro n
    induction n with
    | zero =>
      intro l hn _
      have : l = [] := List.length_eq_zero.mp (Nat.le_zero.mp hn)
      subst this; rfl
    | succ m ih =>
      intro l hn hb
      match l with
      | [] => rfl
      | [a] =>
        have ha : a < 256 := hb a (by simp)
        have hd1 := b64_dec_enc (show a / 4 < 64 by omega)
        have hd2 := b64_dec_enc (show a % 4 * 16 < 64 by omega)
        have hz : a % 4 * 16 % 16 = 0 := by omega
        simp [b64Encode, b64Decode, b64DecLast, hd1, hd2, hz]
        omega
      | [a, b] =>
        have ha : a < 256 := hb a (by simp)
        have hc : b < 256 := hb b (by simp)
        have hd1 := b64_dec_enc (show a / 4 < 64 by omega)
        have hd2 := b64_dec_enc (show a % 4 * 16 + b / 16 < 64 by omega)
        have hd3 := b64_dec_enc (show b % 16 * 4 < 64 by omega)
        have hne3 := b64_enc_ne_pad (show b % 16 * 4 < 64 by omega)
        have hz : b % 16 * 4 % 4 = 0 := by omega
        simp [b64Encode, b64Decode, b64DecLast, hd1, hd2, hd3, hne3, hz]
        omega
      | a :: b :: c :: rest =>
        have ha : a < 256 := hb a (by simp)
        have hbb : b < 256 := hb b (by simp)
        have hc : c < 256 := hb c (by simp)
        have hd1 := b64_dec_enc (show a / 4 < 64 by omega)
        have hd2 := b64_dec_enc (show a % 4 * 16 + b / 16 < 64 by omega)
        have hd3 := b64_dec_enc (show b % 16 * 4 + c / 64 < 64 by omega)
        have hd4 := b64_dec_enc (show c % 64 < 64 by omega)
        have hrest : ∀ x ∈ rest, x < 256 := fun x hx => hb x (by simp [hx])
        have hrlen : rest.length ≤ m := by simp at hn; omega
        match rest with
        | [] =>
          have hne3 := b64_enc_ne_pad (show b % 16 * 4 + c / 64 < 64 by omega)
          have hne4 := b64_enc_ne_pad (show c % 64 < 64 by omega)
          simp [b64Encode, b64Decode, b64DecLast, hd1, hd2, hd3, hd4, hne3, hne4]
          omega
        | r0 :: rtail =>
          have hih := ih (r0 :: rtail) hrlen (fun x hx => hrest x hx)
          have hemp : (b64Encode (r0 :: rtail)).isEmpty = false := by
            cases hE : b64Encode (r0 :: rtail) with
            | nil => exact absurd hE (b64Encode_ne_nil (List.cons_ne_nil _ _))
            | cons e0 es => rfl
          rw [show b64Encode (a :: b :: c :: r0 :: rtail)
                = b64EncChar (a / 4) :: b64EncChar (a % 4 * 16 + b / 16) ::
                  b64EncChar (b % 16 * 4 + c / 64) :: b64EncChar (c % 64) ::
                  b64Encode (r0 :: rtail) from rfl]
          simp only [b64Decode, hemp, Bool.false_eq_true, if_false, hd1, hd2, hd3, hd4, hih]
          simp
          omega
  intro l hb
  exact main l.length l (le_refl _) hb

theorem b64DecVal_lt : ∀ (c : Char) (v : Nat), b64DecVal c = some v → v < 64 := by
  intro c v h
  unfold b64DecVal at h
  split at h
  · rename_i hc
    have h90 : c.toNat ≤ 90 := by
      have := hc.2
      simp only [Char.le_def] at this
      exact this
    simp at h; omega
  · split at h
    · rename_i hc
      have h122 : c.toNat ≤ 122 := by
        have := hc.2
        simp only [Char.le_def] at this
        exact this
      simp at h; omega
    · split at h
      · rename_i hc
        have h57 : c.toNat ≤ 57 := by
          have := hc.2
          simp only [Char.le_def] at this
          exact this
        simp at h; omega
      · split at h
        · simp at h; omega
        · split at h
          · simp at h; omega
          · exact absurd h (by simp)

theorem b64DecLast_bytes_lt (c1 c2 c3 c4 : Char) (bs : List Nat)
    (h : b64DecLast c1 c2 c3 c4 = some bs) : ∀ x ∈ bs, x < 256 := by
  unfold b64DecLast at h
  split at h
  · match h1 : b64DecVal c1, h2 : b64DecVal c2 with
    | some v1, some v2 =>
      rw [h1, h2] at h
      have hv1 := b64DecVal_lt _ _ h1
      have hv2 := b64DecVal_lt _ _ h2
      simp at h
      obtain ⟨-, hbs⟩ := h
      subst hbs
      intro x hx
      simp at hx
      omega
    | some _, none => rw [h1, h2] at h; exact absurd h (by simp)
    | none, _ => rw [h1] at h; exact absurd h (by simp)
  · split at h
    · match h1 : b64DecVal c1, h2 : b64DecVal c2, h3 : b64DecVal c3 with
      | some v1, some v2, some v3 =>
        rw [h1, h2, h3] at h
        have hv1 := b64DecVal_lt _ _ h1
        have hv2 := b64DecVal_lt _ _ h2
        have hv3 := b64DecVal_lt _ _ h3
        simp at h
        obtain ⟨-, hbs⟩ := h
        subst hbs
        intro x hx
        simp at hx
        rcases hx with hx | hx <;> omega
      | some _, some _, none => rw [h1, h2, h3] at h; exact absurd h (by simp)
      | some _, none, _ => rw [h1, h2] at h; exact absurd h (by simp)
      | none, _, _ => rw [h1] at h; exact absurd h (by simp)
    · match h1 : b64DecVal c1, h2 : b64DecVal c2, h3 : b64DecVal c3,
          h4 : b64DecVal c4 with
      | some v1, some v2, some v3, some v4 =>
        rw [h1, h2, h3, h4] at h
        have hv1 := b64DecVal_lt _ _ h1
        have hv2 := b64DecVal_lt _ _ h2
        have hv3 := b64DecVal_lt _ _ h3
        have hv4 := b64DecVal_lt _ _ h4
        simp at h
        subst h
        intro x hx
        simp at hx
        rcases hx with hx | hx | hx <;> omega
      | some _, some _, some _, none => rw [h1, h2, h3, h4] at h; exact absurd h (by simp)
      | some _, some _, none, _ => rw [h1, h2, h3] at h; exact absurd h (by simp)
      | some _, none, _, _ => rw [h1, h2] at h; exact absurd h (by simp)
      | none, _, _, _ => rw [h1] at h; exact absurd h (by simp)

theorem b64Decode_bytes_lt : ∀ (cs : List Char) (bs : List Nat),
    b64Decode cs = some bs → ∀ x ∈ bs, x < 256 := by
  have main : ∀ n (cs : List Char), cs.length ≤ n → ∀ bs,
      b64Decode cs = some bs → ∀ x ∈ bs, x < 256 := by
    intro n
    induction n with
    | zero =>
      intro cs hn bs h x hx
      have : cs = [] := List.length_eq_zero.mp (Nat.le_zero.mp hn)
      subst this
      simp [b64Decode] at h
      subst h
      simp at hx
    | succ m ih =>
      intro cs hn bs h x hx
      match cs with
      | [] =>
        simp [b64Decode] at h
        subst h
        simp at hx
      | [c1] => simp [b64Decode] at h
      | [c1, c2] => simp [b64Decode] at h
      | [c1, c2, c3] => simp [b64Decode] at h
      | c1 :: c2 :: c3 :: c4 :: rest =>
        rw [show b64Decode (c1 :: c2 :: c3 :: c4 :: rest)
              = if rest.isEmpty then b64DecLast c1 c2 c3 c4
                else match b64DecVal c1, b64DecVal c2, b64DecVal c3, b64DecVal c4,
                    b64Decode rest with
                  | some v1, some v2, some v3, some v4, some bs =>
                      some ((v1 * 4 + v2 / 16) :: (v2 % 16 * 16 + v3 / 4) ::
                        (v3 % 4 * 64 + v4) :: bs)
                  | _, _, _, _, _ => none from rfl] at h
        by_cases hemp : rest.isEmpty = true
        · rw [if_pos hemp] at h
          exact b64DecLast_bytes_lt c1 c2 c3 c4 bs h x hx
        · rw [if_neg hemp] at h
          match h1 : b64DecVal c1, h2 : b64DecVal c2, h3 : b64DecVal c3,
              h4 : b64DecVal c4, h5 : b64Decode rest with
          | some v1, some v2, some v3, some v4, some tailbs =>
            rw [h1, h2, h3, h4, h5] at h
            have hv1 := b64DecVal_lt _ _ h1
            have hv2 := b64DecVal_lt _ _ h2
            have hv3 := b64DecVal_lt _ _ h3
            have hv4 := b64DecVal_lt _ _ h4
            simp at h
            subst h
            simp at hx
            rcases hx with hx | hx | hx | hx
            · omega
            · omega
            · omega
            · exact ih rest (by simp at hn; omega) tailbs h5 x hx
          | some _, some _, some _, some _, none =>
            rw [h1, h2, h3, h4, h5] at h; exact absurd h (by simp)
          | some _, some _, some _, none, _ =>
            rw [h1, h2, h3, h4] at h; exact absurd h (by simp)
          | some _, some _, none, _, _ => rw [h1, h2, h3] at h; exact absurd h (by simp)
          | some _, none, _, _, _ => rw [h1, h2] at h; exact absurd h (by simp)
          | none, _, _, _, _ => rw [h1] at h; exact absurd h (by simp)
  intro cs bs h x hx
  exact main cs.length cs (le_refl _) bs h x hx

/-! ## Base58 (bitcoin alphabet)

Models the `bs58` crate (used by the source as `bs58::encode(..).into_string()`)
and solana's `Pubkey::from_str` (which bs58-decodes and checks for exactly
32 bytes after a 44-character length cap).  Mathematically, bs58 renders a
byte string as one `'1'` per leading zero byte followed by the big-endian
base-58 digits of the remaining bytes read as a big-endian number. -/

def b58Alphabet : List Char :=
  "123456789ABCDEFGHJKLMNPQRSTUVWXYZabcdefghijkmnopqrstuvwxyz".data

def b58Char (v : Nat) : Char := b58Alphabet.getD v '1'

/-- Model of the bs58 crate's character lookup table. -/
def b58Val (c : Char) : Option Nat := b58Alphabet.findIdx? (fun d => d == c)

/-- Big-endian interpretation of a byte string as a number (`Nat` because
the bs58 crate does exact bignum arithmetic). -/
def beNat (l : List Nat) : Nat := l.foldl (fun a b => a * 256 + b) 0

def countLeading0 : List Nat → Nat
  | [] => 0
  | b :: l => if b = 0 then countLeading0 l + 1 else 0

def countLeading1 : List Char → Nat
  | [] => 0
  | c :: l => if c = '1' then countLeading1 l + 1 else 0

/-- Little-endian base-`b` digits, fuel-based so the kernel can evaluate it
(`Nat.digits` is defined by well-founded recursion, which does not reduce). -/
def digitsLEFuel (b : Nat) : Nat → Nat → List Nat
  | _, 0 => []
  | 0, _ + 1 => []
  | fuel + 1, n + 1 => (n + 1) % b :: digitsLEFuel b fuel ((n + 1) / b)

def digitsLE (b n : Nat) : List Nat := digitsLEFuel b n n

theorem digitsLEFuel_eq (b : Nat) (hb : 2 ≤ b) :
    ∀ fuel n, n ≤ fuel → digitsLEFuel b fuel n = Nat.digits b n := by
  intro fuel
  induction fuel with
  | zero =>
    intro n hn
    have : n = 0 := Nat.le_zero.mp hn
    subst this
    simp [digitsLEFuel]
  | succ m ih =>
    intro n hn
    cases n with
    | zero => simp [digitsLEFuel]
    | succ k =>
      have hdiv : (k + 1) / b ≤ m := by
        have h1 : (k + 1) / b < k + 1 := Nat.div_lt_self (Nat.succ_pos k) hb
        omega
      rw [show digitsLEFuel b (m + 1) (k + 1)
            = (k + 1) % b :: digitsLEFuel b m ((k + 1) / b) from rfl,
          ih _ hdiv, Nat.digits_def' (by omega : 1 < b) (Nat.succ_pos k)]

theorem digitsLE_eq (b : Nat) (hb : 2 ≤ b) (n : Nat) : digitsLE b n = Nat.digits b n :=
  digitsLEFuel_eq b hb n n (le_refl n)

/-- Model of `bs58::encode(bytes).into_string()`. -/
def bs58Encode (l : List Nat) : String :=
  ⟨List.replicate (countLeading0 l) '1' ++ (digitsLE 58 (beNat l)).reverse.map b58Char⟩

def optVals : List Char → Option (List Nat)
  | [] => some []
  | c :: cs =>
    match b58Val c, optVals cs with
    | some v, some vs => some (v :: vs)
    | _, _ => none

/-- Model of `bs58::decode(s).into_vec()`: every character must be in the
alphabet; the result is one zero byte per leading `'1'` followed by the
big-endian bytes of the base-58 value of the whole string. -/
def bs58Decode (l : List Char) : Option (List Nat) :=
  match optVals l with
  | none => none
  | some vals =>
    some (List.replicate (countLeading1 l) 0 ++
      (digitsLE 256 (vals.foldl (fun a v => a * 58 + v) 0)).reverse)

/-- Model of solana `Pubkey::from_str`: reject strings longer than 44
bytes, bs58-decode, reject unless exactly 32 bytes result. -/
def pubkeyFromStr (s : String) : Option (List Nat) :=
  if rustLen s > 44 then none
  else
    match bs58Decode s.data with
    | none => none
    | some v => if v.length = 32 then some v else none

theorem b58_val_char_fin : ∀ v : Fin 58, b58Val (b58Char v.val) = some v.val := by
  decide

theorem b58_val_one : b58Val '1' = some 0 := by decide

theorem b58_char_ne_one_fin : ∀ v : Fin 58, v.val ≠ 0 → b58Char v.val ≠ '1' := by
  decide

theorem b58_charBytes_fin : ∀ v : Fin 58, charBytes (b58Char v.val) = 1 := by
  decide

/-- Accumulator form of `Nat.ofDigits` over a reversed digit list. -/
theorem foldl_mul_add (b : Nat) :
    ∀ (L : List Nat) (a : Nat),
      L.reverse.foldl (fun x d => x * b + d) a = a * b ^ L.length + Nat.ofDigits b L := by
  intro L
  induction L with
  | nil => intro a; simp [Nat.ofDigits_nil]
  | cons d t ih =>
    intro a
    simp only [List.reverse_cons, List.foldl_append, List.foldl_cons, List.foldl_nil,
      ih a, Nat.ofDigits_cons, List.length_cons, pow_succ]
    ring

theorem beNat_eq_ofDigits (l : List Nat) : beNat l = Nat.ofDigits 256 l.reverse := by
  have := foldl_mul_add 256 l.reverse 0
  simp only [List.reverse_reverse] at this
  simpa [beNat] using this

theorem replicate_zero_append_drop (l : List Nat) :
    List.replicate (countLeading0 l) 0 ++ l.drop (countLeading0 l) = l := by
  induction l with
  | nil => rfl
  | cons h t ih =>
    by_cases h0 : h = 0
    · subst h0
      simp only [countLeading0, if_pos rfl, List.replicate_succ, List.cons_append,
        List.drop_succ_cons]
      exact congrArg (0 :: ·) ih
    · simp [countLeading0, h0]

theorem drop_countLeading0_head (l : List Nat) :
    l.drop (countLeading0 l) = [] ∨
      ∃ h t, l.drop (countLeading0 l) = h :: t ∧ h ≠ 0 := by
  induction l with
  | nil => left; rfl
  | cons a t ih =>
    by_cases h0 : a = 0
    · subst h0
      simpa [countLeading0] using ih
    · right
      exact ⟨a, t, by simp [countLeading0, h0], h0⟩

theorem countLeading0_le (l : List Nat) : countLeading0 l ≤ l.length := by
  induction l with
  | nil => simp [countLeading0]
  | cons a t ih =>
    by_cases h0 : a = 0
    · simp [countLeading0, h0]; omega
    · simp [countLeading0, h0]

theorem beNat_replicate_zero (z : Nat) (r : List Nat) :
    beNat (List.replicate z 0 ++ r) = beNat r := by
  induction z with
  | zero => rfl
  | succ m ih => simpa [List.replicate_succ, beNat] using ih

/-- Big-endian byte decoding is inverse to `beNat` on byte strings without
a leading zero. -/
theorem digitsLE_beNat (r : List Nat) (hb : ∀ x ∈ r, x < 256)
    (hhd : ∀ h t, r = h :: t → h ≠ 0) :
    (digitsLE 256 (beNat r)).reverse = r := by
  cases r with
  | nil =>
    simp [beNat, digitsLE, digitsLEFuel]
  | cons h t =>
    have hne : h ≠ 0 := hhd h t rfl
    rw [digitsLE_eq 256 (by omega), beNat_eq_ofDigits]
    have hrev : (h :: t).reverse = t.reverse ++ [h] := by simp
    rw [hrev]
    rw [Nat.digits_ofDigits 256 (by omega) (t.reverse ++ [h])
      (by
        intro d hd
        apply hb
        rcases List.mem_append.mp hd with hd | hd
        · simp [List.mem_reverse.mp hd]
        · simp at hd; simp [hd])
      (by
        intro hne2
        simpa using hne)]
    simp

theorem foldl_le_bound (l : List Nat) : ∀ a : Nat, (∀ x ∈ l, x < 256) →
    l.foldl (fun p b => p * 256 + b) a < (a + 1) * 256 ^ l.length := by
  induction l with
  | nil => intro a _; simp
  | cons h t ih =>
    intro a hb
    have hh : h < 256 := hb h (by simp)
    have ht : ∀ x ∈ t, x < 256 := fun x hx => hb x (by simp [hx])
    have step := ih (a * 256 + h) ht
    have hsucc : a * 256 + h + 1 ≤ (a + 1) * 256 := by omega
    calc List.foldl (fun p b => p * 256 + b) (a * 256 + h) t
      < (a * 256 + h + 1) * 256 ^ t.length := step
    _ ≤ (a + 1) * 256 * 256 ^ t.length := Nat.mul_le_mul_right _ hsucc
    _ = (a + 1) * 256 ^ (t.length + 1) := by ring

theorem beNat_lt (l : List Nat) (hb : ∀ x ∈ l, x < 256) : beNat l < 256 ^ l.length := by
  have := foldl_le_bound l 0 hb
  simpa [beNat] using this

theorem countLeading1_replicate (z : Nat) (cs : List Char)
    (h : ∀ c t, cs = c :: t → c ≠ '1') :
    countLeading1 (List.replicate z '1' ++ cs) = z := by
  induction z with
  | zero =>
    cases cs with
    | nil => rfl
    | cons c t =>
      have := h c t rfl
      simp [countLeading1, this]
  | succ m ih => simp [List.replicate_succ, countLeading1, ih]

theorem optVals_replicate_append (z : Nat) (ds : List Nat) (hd : ∀ d ∈ ds, d < 58) :
    optVals (List.replicate z '1' ++ ds.map b58Char) =
      some (List.replicate z 0 ++ ds) := by
  induction z with
  | zero =>
    simp only [List.replicate, List.nil_append]
    induction ds with
    | nil => rfl
    | cons d t ih =>
      have hdd : d < 58 := hd d (by simp)
      have ht : ∀ x ∈ t, x < 58 := fun x hx => hd x (by simp [hx])
      simp only [List.map_cons, optVals, b58_val_char_fin ⟨d, hdd⟩, ih ht]
  | succ m ih =>
    simp [List.replicate_succ, optVals, b58_val_one, ih]

/-- bs58 round trip: decoding the rendering of any byte string returns
exactly the original bytes. -/
theorem bs58_roundtrip (l : List Nat) (hb : ∀ x ∈ l, x < 256) :
    bs58Decode (bs58Encode l).data = some l := by
  have hz := replicate_zero_append_drop l
  have hhd := drop_countLeading0_head l
  have hrb : ∀ x ∈ l.drop (countLeading0 l), x < 256 :=
    fun x hx => hb x (List.drop_subset _ l hx)
  have hbeNat : beNat l = beNat (l.drop (countLeading0 l)) := by
    conv_lhs => rw [← hz]
    exact beNat_replicate_zero _ _
  have hhd2 : ∀ h t, l.drop (countLeading0 l) = h :: t → h ≠ 0 := by
    intro h t he
    rcases hhd with hnil | ⟨h2, t2, he2, hne2⟩
    · rw [he] at hnil; exact absurd hnil (by simp)
    · rw [he] at he2
      injection he2 with e1 _
      rw [e1]; exact hne2
  have hback : (digitsLE 256 (beNat l)).reverse = l.drop (countLeading0 l) := by
    rw [hbeNat]
    exact digitsLE_beNat _ hrb hhd2
  have hdig : digitsLE 58 (beNat l) = Nat.digits 58 (beNat l) := digitsLE_eq 58 (by omega) _
  have hdlt : ∀ d ∈ (digitsLE 58 (beNat l)).reverse, d < 58 := by
    intro d hd
    rw [hdig, List.mem_reverse] at hd
    exact Nat.digits_lt_base (by omega) hd
  -- the rendered digit characters never start with '1'
  have hfirst : ∀ c t, (digitsLE 58 (beNat l)).reverse.map b58Char = c :: t → c ≠ '1' := by
    intro c t he
    by_cases hn0 : beNat l = 0
    · rw [hdig, hn0] at he
      simp at he
    · rw [hdig] at he
      have hne : Nat.digits 58 (beNat l) ≠ [] := Nat.digits_ne_nil_iff_ne_zero.mpr hn0
      have hlast := Nat.getLast_digit_ne_zero 58 hn0
      -- head of (reverse digits) = last digit
      obtain ⟨d, dt, hdtl⟩ : ∃ d dt, (Nat.digits 58 (beNat l)).reverse = d :: dt := by
        cases hr : (Nat.digits 58 (beNat l)).reverse with
        | nil =>
          exfalso
          have : Nat.digits 58 (beNat l) = [] := by
            have := congrArg List.reverse hr
            simpa using this
          exact hne this
        | cons d dt => exact ⟨d, dt, rfl⟩
      have hrevform : Nat.digits 58 (beNat l) = dt.reverse ++ [d] := by
        have := congrArg List.reverse hdtl
        simpa using this
      have hopt1 : (Nat.digits 58 (beNat l)).getLast? = some d := by
        rw [hrevform]
        exact List.getLast?_concat _
      have hopt2 : (Nat.digits 58 (beNat l)).getLast? =
          some ((Nat.digits 58 (beNat l)).getLast hne) :=
        List.getLast?_eq_getLast _ hne
      have hdval : d = (Nat.digits 58 (beNat l)).getLast hne := by
        rw [hopt1] at hopt2
        injection hopt2
      have hdne : d ≠ 0 := by rw [hdval]; exact hlast
      have hdlt2 : d < 58 := by
        apply hdlt
        rw [hdig, hdtl]; simp
      rw [hdtl] at he
      simp at he
      rw [← he.1]
      exact b58_char_ne_one_fin ⟨d, hdlt2⟩ hdne
  unfold bs58Encode
  rw [show (String.mk (List.replicate (countLeading0 l) '1' ++
        (digitsLE 58 (beNat l)).reverse.map b58Char)).data
      = List.replicate (countLeading0 l) '1' ++
        (digitsLE 58 (beNat l)).reverse.map b58Char from rfl]
  simp only [bs58Decode, optVals_replicate_append _ _ hdlt,
    countLeading1_replicate _ _ hfirst]
  have hfold : ((List.replicate (countLeading0 l) 0 ++
      (digitsLE 58 (beNat l)).reverse).foldl (fun a v => a * 58 + v) 0) = beNat l := by
    have hzfold : ∀ z (r : List Nat),
        (List.replicate z 0 ++ r).foldl (fun a v => a * 58 + v) 0
          = r.foldl (fun a v => a * 58 + v) 0 := by
      intro z r
      induction z with
      | zero => rfl
      | succ m ih => simpa [List.replicate_succ] using ih
    rw [hzfold]
    rw [hdig]
    have := foldl_mul_add 58 (Nat.digits 58 (beNat l)) 0
    rw [this]
    simp [Nat.ofDigits_digits]
  rw [hfold, hback]
  rw [hz]

/-- The bs58 rendering of a 32-byte string is at most 44 characters. -/
theorem bs58Encode_len_le (l : List Nat) (h32 : l.length = 32)
    (hb : ∀ x ∈ l, x < 256) : (bs58Encode l).data.length ≤ 44 := by
  have hzle : countLeading0 l ≤ 32 := h32 ▸ countLeading0_le l
  have hrb : ∀ x ∈ l.drop (countLeading0 l), x < 256 :=
    fun x hx => hb x (List.drop_subset _ l hx)
  have hbeNat : beNat l = beNat (l.drop (countLeading0 l)) := by
    conv_lhs => rw [← replicate_zero_append_drop l]
    exact beNat_replicate_zero _ _
  have hlt : beNat l < 256 ^ (32 - countLeading0 l) := by
    rw [hbeNat]
    have := beNat_lt (l.drop (countLeading0 l)) hrb
    simpa [List.length_drop, h32] using this
  have hpow : ∀ z : Fin 33, 256 ^ (32 - z.val) ≤ 58 ^ (44 - z.val) := by decide
  have hpow' : 256 ^ (32 - countLeading0 l) ≤ 58 ^ (44 - countLeading0 l) :=
    hpow ⟨countLeading0 l, by omega⟩
  have hdlen : (Nat.digits 58 (beNat l)).length ≤ 44 - countLeading0 l := by
    by_cases hn0 : beNat l = 0
    · simp [hn0]
    · have hlog : Nat.log 58 (beNat l) < 44 - countLeading0 l :=
        Nat.log_lt_of_lt_pow hn0 (lt_of_lt_of_le hlt hpow')
      rw [Nat.digits_len 58 (beNat l) (by omega) hn0]
      omega
  unfold bs58Encode
  rw [show (String.mk (List.replicate (countLeading0 l) '1' ++
        (digitsLE 58 (beNat l)).reverse.map b58Char)).data
      = List.replicate (countLeading0 l) '1' ++
        (digitsLE 58 (beNat l)).reverse.map b58Char from rfl]
  rw [List.length_append, List.length_replicate, List.length_map,
    List.length_reverse, digitsLE_eq 58 (by omega)]
  omega

theorem byteLen_all_one (cs : List Char) (h : ∀ c ∈ cs, charBytes c = 1) :
    byteLen cs = cs.length := by
  induction cs with
  | nil => rfl
  | cons c t ih =>
    have hc : charBytes c = 1 := h c (by simp)
    have ht : ∀ x ∈ t, charBytes x = 1 := fun x hx => h x (by simp [hx])
    simp only [byteLen, hc, ih ht, List.length_cons]
    omega

theorem bs58Encode_rustLen_le (l : List Nat) (h32 : l.length = 32)
    (hb : ∀ x ∈ l, x < 256) : rustLen (bs58Encode l) ≤ 44 := by
  have hlen := bs58Encode_len_le l h32 hb
  have hones : ∀ c ∈ (bs58Encode l).data, charBytes c = 1 := by
    intro c hc
    unfold bs58Encode at hc
    rw [show (String.mk (List.replicate (countLeading0 l) '1' ++
          (digitsLE 58 (beNat l)).reverse.map b58Char)).data
        = List.replicate (countLeading0 l) '1' ++
          (digitsLE 58 (beNat l)).reverse.map b58Char from rfl] at hc
    rcases List.mem_append.mp hc with hc | hc
    · have := List.eq_of_mem_replicate hc
      subst this
      decide
    · obtain ⟨d, hd, he⟩ := List.mem_map.mp hc
      have hdlt : d < 58 := by
        rw [digitsLE_eq 58 (by omega), List.mem_reverse] at hd
        exact Nat.digits_lt_base (by omega) hd
      rw [← he]
      exact b58_charBytes_fin ⟨d, hdlt⟩
  unfold rustLen
  rw [byteLen_all_one _ hones]
  exact hlen

/-- `Pubkey::from_str` round trip on bs58-rendered 32-byte strings: the
`.unwrap()` in the source can never panic. -/
theorem pubkeyFromStr_roundtrip (l : List Nat) (h32 : l.length = 32)
    (hb : ∀ x ∈ l, x < 256) : pubkeyFromStr (bs58Encode l) = some l := by
  unfold pubkeyFromStr
  rw [if_neg (by have := bs58Encode_rustLen_le l h32 hb; omega)]
  rw [bs58_roundtrip l hb]
  simp [h32]

/-! ## UTF-8 validation

Model of the validation performed by Rust `String::from_utf8`: well-formed
UTF-8 per RFC 3629 (no overlong forms, no surrogates, nothing above
U+10FFFF). -/

/-- Continuation byte (`0x80..=0xBF`). -/
def contB (c : Nat) : Bool := decide (0x80 ≤ c) && decide (c < 0xC0)

def validUtf8 : List Nat → Bool
  | [] => true
  | b :: l =>
    if b < 0x80 then validUtf8 l
    else if b < 0xC2 then false
    else if b < 0xE0 then
      match l with
      | c1 :: l2 => contB c1 && validUtf8 l2
      | [] => false
    else if b = 0xE0 then
      match l with
      | c1 :: c2 :: l3 =>
          (decide (0xA0 ≤ c1) && decide (c1 < 0xC0)) && contB c2 && validUtf8 l3
      | _ => false
    else if b < 0xED then
      match l with
      | c1 :: c2 :: l3 => contB c1 && contB c2 && validUtf8 l3
      | _ => false
    else if b = 0xED then
      match l with
      | c1 :: c2 :: l3 =>
          (decide (0x80 ≤ c1) && decide (c1 < 0xA0)) && contB c2 && validUtf8 l3
      | _ => false
    else if b < 0xF0 then
      match l with
      | c1 :: c2 :: l3 => contB c1 && contB c2 && validUtf8 l3
      | _ => false
    else if b = 0xF0 then
      match l with
      | c1 :: c2 :: c3 :: l4 =>
          (decide (0x90 ≤ c1) && decide (c1 < 0xC0)) && contB c2 && contB c3 &&
            validUtf8 l4
      | _ => false
    else if b < 0xF4 then
      match l with
      | c1 :: c2 :: c3 :: l4 => contB c1 && contB c2 && contB c3 && validUtf8 l4
      | _ => false
    else if b = 0xF4 then
      match l with
      | c1 :: c2 :: c3 :: l4 =>
          (decide (0x80 ≤ c1) && decide (c1 < 0x90)) && contB c2 && contB c3 &&
            validUtf8 l4
      | _ => false
    else false

/-! ## The payload decoder (`parse_create_token_data`, src/utils.rs 54-140) -/

/-- Decode-error tags, one per `anyhow!` message of the source. -/
inductive DecodeErr
  | invalidBase64   -- "Failed to decode base64"
  | nameLen         -- "Data too short for name length"
  | name            -- "Data too short for name: need {} bytes"
  | nameUtf8        -- "Invalid UTF-8 in name"
  | symbolLen       -- "Data too short for symbol length"
  | symbol          -- "Data too short for symbol: need {} bytes"
  | symbolUtf8      -- "Invalid UTF-8 in symbol"
  | uriLen          -- "Data too short for URI length"
  | uri             -- "Data too short for URI: need {} bytes"
  | uriUtf8         -- "Invalid UTF-8 in uri"
  | keys            -- "Data too short for public keys"
  deriving DecidableEq, Repr

/-- The decoded event.  String fields are the UTF-8 bytes of the Rust
`String`s; key fields are the 32 raw bytes of the `Pubkey`s (solana's
`Pubkey` is `[u8; 32]`, displayed in base-58 via `bs58Encode`).  The
`created_at` wall-clock timestamp of the source is outside the model: it
carries no wire data. -/
structure CreateTokenInfo where
  name : List Nat
  symbol : List Nat
  uri : List Nat
  mint : List Nat
  bonding_curve : List Nat
  user : List Nat
  deriving DecidableEq, Repr

/-- Model of solana's `Pubkey` `Display` (base-58 of the 32 bytes). -/
def pubkeyDisplay (k : List Nat) : String := bs58Encode k

inductive ParseResult
  | ok : CreateTokenInfo → ParseResult
  | err : DecodeErr → ParseResult
  | panicked : ParseResult
  deriving DecidableEq, Repr

/-- Model of `read_u32` (utils.rs 54-58): copy the first four bytes, read
little-endian.  `copy_from_slice` panics (`none`) on fewer than 4 bytes. -/
def read_u32 (data : List Nat) : Option Nat :=
  match data with
  | b0 :: b1 :: b2 :: b3 :: _ => some (b0 + 256 * (b1 + 256 * (b2 + 256 * b3)))
  | _ => none

inductive FieldRes
  | ok : List Nat → Nat → FieldRes
  | shortLen
  | shortData
  | badUtf8
  | panicked
  deriving DecidableEq, Repr

/-- One length-prefixed string read of `parse_create_token_data`: the
bounds check for the 4-byte length, `read_u32`, the bounds check for the
declared payload, and `String::from_utf8`.  This block appears verbatim
three times in the source (name / symbol / uri), differing only in the
error message; `parseFields` maps the outcomes to the per-field errors. -/
def readField (decoded : List Nat) (cursor : Nat) : FieldRes :=
  if cursor + 4 > decoded.length then .shortLen
  else
    match read_u32 (decoded.drop cursor) with
    | none => .panicked
    | some len =>
      if cursor + 4 + len > decoded.length then .shortData
      else
        let bytes := (decoded.drop (cursor + 4)).take len
        if validUtf8 bytes then .ok bytes (cursor + 4 + len) else .badUtf8

/-- Body of `parse_create_token_data` after base64 decoding, from offset
`start`: three length-prefixed strings, the 32*3-byte bounds check, three
bs58-rendered keys re-parsed through `Pubkey::from_str(..).unwrap()`
(`panicked` if the unwrap could fail). -/
def parseFields (decoded : List Nat) (start : Nat) : ParseResult :=
  match readField decoded start with
  | .panicked => .panicked
  | .shortLen => .err .nameLen
  | .shortData => .err .name
  | .badUtf8 => .err .nameUtf8
  | .ok nameB c1 =>
    match readField decoded c1 with
    | .panicked => .panicked
    | .shortLen => .err .symbolLen
    | .shortData => .err .symbol
    | .badUtf8 => .err .symbolUtf8
    | .ok symbolB c2 =>
      match readField decoded c2 with
      | .panicked => .panicked
      | .shortLen => .err .uriLen
      | .shortData => .err .uri
      | .badUtf8 => .err .uriUtf8
      | .ok uriB c3 =>
        if c3 + 32 * 3 > decoded.length then .err .keys
        else
          match pubkeyFromStr (bs58Encode ((decoded.drop c3).take 32)),
              pubkeyFromStr (bs58Encode ((decoded.drop (c3 + 32)).take 32)),
              pubkeyFromStr (bs58Encode ((decoded.drop (c3 + 64)).take 32)) with
          | some m, some b, some u => .ok ⟨nameB, symbolB, uriB, m, b, u⟩
          | _, _, _ => .panicked

/-- `parse_create_token_data` after base64: skip the 8-byte discriminant
prefix only when the buffer is longer than 8 bytes (utils.rs line 66). -/
def parse_bytes (decoded : List Nat) : ParseResult :=
  parseFields decoded (if decoded.length > 8 then 8 else 0)

/-- Model of `parse_create_token_data` (utils.rs 60-140). -/
def parse_create_token_data (data : String) : ParseResult :=
  match b64Decode data.data with
  | none => .err .invalidBase64
  | some decoded => parse_bytes decoded

/-! ## The documented wire layout (spec section 4.2) -/

/-- 4-byte little-endian length field. -/
def le32 (n : Nat) : List Nat :=
  [n % 256, n / 256 % 256, n / 65536 % 256, n / 16777216 % 256]

/-- The documented layout: 8-byte discriminant, then `name`, `symbol`,
`uri` each as 4-byte little-endian length plus bytes, then the three
32-byte keys. -/
def encodeRecord (disc nameB symbolB uriB mintB bcB userB : List Nat) : List Nat :=
  disc ++ le32 nameB.length ++ nameB ++ le32 symbolB.length ++ symbolB ++
    le32 uriB.length ++ uriB ++ mintB ++ bcB ++ userB

/-! ## Decoder lemmas -/

theorem le32_length (n : Nat) : (le32 n).length = 4 := rfl

theorem le32_bytes_lt (n : Nat) : ∀ x ∈ le32 n, x < 256 := by
  intro x hx
  simp [le32] at hx
  rcases hx with h | h | h | h <;> omega

theorem read_u32_le32 (n : Nat) (hn : n < 4294967296) (r : List Nat) :
    read_u32 (le32 n ++ r) = some n := by
  simp only [le32, List.cons_append, List.nil_append, read_u32, Option.some.injEq]
  omega

theorem read_u32_isSome (l : List Nat) (h : 4 ≤ l.length) :
    ∃ v, read_u32 l = some v := by
  match l with
  | [] => simp at h
  | [a] => simp at h
  | [a, b] => simp at h
  | [a, b, c] => simp at h
  | a :: b :: c :: d :: r => exact ⟨_, rfl⟩

theorem read_u32_append (x e : List Nat) (h : 4 ≤ x.length) :
    read_u32 (x ++ e) = read_u32 x := by
  match x with
  | [] => simp at h
  | [a] => simp at h
  | [a, b] => simp at h
  | [a, b, c] => simp at h
  | a :: b :: c :: d :: r => rfl

/-- `readField` never reaches the `read_u32` panic: the bounds check in
front of it guarantees four bytes. -/
theorem readField_no_panic (decoded : List Nat) (cursor : Nat) :
    readField decoded cursor ≠ .panicked := by
  unfold readField
  split
  · simp
  · rename_i hle
    obtain ⟨v, hv⟩ := read_u32_isSome (decoded.drop cursor) (by simp; omega)
    rw [hv]
    by_cases h2 : cursor + 4 + v > decoded.length
    · simp [h2]
    · by_cases hu : validUtf8 ((decoded.drop (cursor + 4)).take v) = true
      · simp [h2, hu]
      · simp [h2, hu]

/-- `readField` on a buffer laid out as the documented wire format. -/
theorem readField_at (buf pre data tail : List Nat) (cursor : Nat)
    (hbuf : buf = pre ++ le32 data.length ++ data ++ tail)
    (hcur : cursor = pre.length)
    (hlen : data.length < 4294967296) (hv : validUtf8 data = true) :
    readField buf cursor = .ok data (cursor + 4 + data.length) := by
  subst hbuf hcur
  have hblen : (pre ++ le32 data.length ++ data ++ tail).length
      = pre.length + 4 + data.length + tail.length := by
    simp [le32]
    omega
  have hassoc : pre ++ le32 data.length ++ data ++ tail
      = pre ++ (le32 data.length ++ (data ++ tail)) := by
    simp [List.append_assoc]
  have hdrop1 : (pre ++ le32 data.length ++ data ++ tail).drop pre.length
      = le32 data.length ++ (data ++ tail) := by
    rw [hassoc]
    exact drop_len_append _ _
  have hassoc2 : pre ++ le32 data.length ++ data ++ tail
      = (pre ++ le32 data.length) ++ (data ++ tail) := by
    simp [List.append_assoc]
  have hlen2 : (pre ++ le32 data.length).length = pre.length + 4 := by
    simp [le32]
  have hdrop2 : (pre ++ le32 data.length ++ data ++ tail).drop (pre.length + 4)
      = data ++ tail := by
    rw [hassoc2, ← hlen2]
    exact drop_len_append _ _
  simp only [readField, hdrop1, read_u32_le32 data.length hlen (data ++ tail),
    hdrop2, take_len_append data tail, hblen]
  rw [if_neg (by omega), if_neg (by omega), if_pos hv]

/-- In the `ok` case the new cursor advanced by at least the length field
and stays inside the buffer. -/
theorem readField_ok_le {decoded : List Nat} {cursor : Nat} {b : List Nat} {n : Nat}
    (h : readField decoded cursor = .ok b n) :
    cursor + 4 ≤ n ∧ n ≤ decoded.length := by
  unfold readField at h
  split at h
  · simp at h
  · rename_i hle
    match hr : read_u32 (decoded.drop cursor) with
    | none => rw [hr] at h; simp at h
    | some len =>
      rw [hr] at h
      by_cases h2 : cursor + 4 + len > decoded.length
      · simp [h2] at h
      · by_cases hu : validUtf8 ((decoded.drop (cursor + 4)).take len) = true
        · simp [h2, hu] at h
          omega
        · simp [h2, hu] at h

/-- Appending extra bytes after the buffer does not change a successful
field read. -/
theorem readField_mono {decoded : List Nat} {cursor : Nat} {b : List Nat} {n : Nat}
    (extra : List Nat) (h : readField decoded cursor = .ok b n) :
    readField (decoded ++ extra) cursor = .ok b n := by
  unfold readField at h ⊢
  split at h
  · simp at h
  · rename_i hle
    have hc4 : cursor + 4 ≤ decoded.length := by omega
    rw [if_neg (by simp; omega)]
    match hr : read_u32 (decoded.drop cursor) with
    | none => rw [hr] at h; simp at h
    | some len =>
      rw [hr] at h
      have hdrop : (decoded ++ extra).drop cursor = decoded.drop cursor ++ extra :=
        drop_append_le decoded extra cursor (by omega)
      have hread : read_u32 (decoded.drop cursor ++ extra)
          = read_u32 (decoded.drop cursor) :=
        read_u32_append (decoded.drop cursor) extra (by simp; omega)
      rw [hdrop, hread, hr]
      by_cases h2 : cursor + 4 + len > decoded.length
      · simp [h2] at h
      · have hdrop2 : (decoded ++ extra).drop (cursor + 4)
            = decoded.drop (cursor + 4) ++ extra :=
          drop_append_le decoded extra (cursor + 4) (by omega)
        have htake : (decoded.drop (cursor + 4) ++ extra).take len
            = (decoded.drop (cursor + 4)).take len :=
          take_append_le (decoded.drop (cursor + 4)) extra len (by simp; omega)
        have hcond2 : ¬cursor + 4 + len > (decoded ++ extra).length := by
          simp
          omega
        simp only [h2, if_false, ite_false, if_neg h2] at h
        simp only [hdrop2, htake, if_neg hcond2]
        exact h

theorem slice32_length {decoded : List Nat} {off : Nat}
    (h : off + 32 ≤ decoded.length) : ((decoded.drop off).take 32).length = 32 := by
  simp [List.length_take, List.length_drop]
  omega

theorem slice_bytes_lt {decoded : List Nat} (hb : ∀ x ∈ decoded, x < 256)
    (off k : Nat) : ∀ x ∈ (decoded.drop off).take k, x < 256 :=
  fun x hx => hb x (List.drop_subset off decoded (List.take_subset k _ hx))

/-- The decoder never reaches a panicking branch on byte input: the
`read_u32` slice is always guarded, and the `Pubkey::from_str(..).unwrap()`
calls always receive the bs58 rendering of exactly 32 bytes. -/
theorem parseFields_no_panic (decoded : List Nat) (hb : ∀ x ∈ decoded, x < 256)
    (start : Nat) : parseFields decoded start ≠ .panicked := by
  intro hcontra
  unfold parseFields at hcontra
  split at hcontra
  · rename_i h1
    exact readField_no_panic _ _ h1
  · simp at hcontra
  · simp at hcontra
  · simp at hcontra
  · rename_i nameB c1 h1
    split at hcontra
    · rename_i h2
      exact readField_no_panic _ _ h2
    · simp at hcontra
    · simp at hcontra
    · simp at hcontra
    · rename_i symbolB c2 h2
      split at hcontra
      · rename_i h3
        exact readField_no_panic _ _ h3
      · simp at hcontra
      · simp at hcontra
      · simp at hcontra
      · rename_i uriB c3 h3
        split at hcontra
        · simp at hcontra
        · rename_i hk
          have hm := pubkeyFromStr_roundtrip ((decoded.drop c3).take 32)
            (slice32_length (by omega)) (slice_bytes_lt hb c3 32)
          have hbc := pubkeyFromStr_roundtrip ((decoded.drop (c3 + 32)).take 32)
            (slice32_length (by omega)) (slice_bytes_lt hb (c3 + 32) 32)
          have hu := pubkeyFromStr_roundtrip ((decoded.drop (c3 + 64)).take 32)
            (slice32_length (by omega)) (slice_bytes_lt hb (c3 + 64) 32)
          split at hcontra
          · simp at hcontra
          · rename_i hnotall
            exact hnotall _ _ _ hm hbc hu

theorem parseFields_ok_len {decoded : List Nat} {start : Nat} {info : CreateTokenInfo}
    (h : parseFields decoded start = .ok info) : start + 108 ≤ decoded.length := by
  unfold parseFields at h
  split at h
  · simp at h
  · simp at h
  · simp at h
  · simp at h
  · rename_i nameB c1 h1
    have hle1 := readField_ok_le h1
    split at h
    · simp at h
    · simp at h
    · simp at h
    · simp at h
    · rename_i symbolB c2 h2
      have hle2 := readField_ok_le h2
      split at h
      · simp at h
      · simp at h
      · simp at h
      · simp at h
      · rename_i uriB c3 h3
        have hle3 := readField_ok_le h3
        split at h
        · simp at h
        · rename_i hk
          omega

/-- Appending trailing bytes after a successfully parsed buffer does not
change the outcome. -/
theorem parseFields_mono {decoded : List Nat} {start : Nat} {info : CreateTokenInfo}
    (extra : List Nat) (h : parseFields decoded start = .ok info) :
    parseFields (decoded ++ extra) start = .ok info := by
  unfold parseFields at h
  split at h
  · simp at h
  · simp at h
  · simp at h
  · simp at h
  · rename_i nameB c1 h1
    split at h
    · simp at h
    · simp at h
    · simp at h
    · simp at h
    · rename_i symbolB c2 h2
      split at h
      · simp at h
      · simp at h
      · simp at h
      · simp at h
      · rename_i uriB c3 h3
        split at h
        · simp at h
        · rename_i hk
          have hk2 : ¬c3 + 32 * 3 > (decoded ++ extra).length := by
            simp
            omega
          have hs1 : (decoded ++ extra).drop c3 = decoded.drop c3 ++ extra :=
            drop_append_le decoded extra c3 (by omega)
          have hs2 : (decoded ++ extra).drop (c3 + 32) = decoded.drop (c3 + 32) ++ extra :=
            drop_append_le decoded extra (c3 + 32) (by omega)
          have hs3 : (decoded ++ extra).drop (c3 + 64) = decoded.drop (c3 + 64) ++ extra :=
            drop_append_le decoded extra (c3 + 64) (by omega)
          have ht1 : (decoded.drop c3 ++ extra).take 32 = (decoded.drop c3).take 32 :=
            take_append_le _ extra 32 (by simp; omega)
          have ht2 : (decoded.drop (c3 + 32) ++ extra).take 32
              = (decoded.drop (c3 + 32)).take 32 :=
            take_append_le _ extra 32 (by simp; omega)
          have ht3 : (decoded.drop (c3 + 64) ++ extra).take 32
              = (decoded.drop (c3 + 64)).take 32 :=
            take_append_le _ extra 32 (by simp; omega)
          split at h
          · rename_i m b u hm1 hm2 hm3
            simp only [parseFields, readField_mono extra h1, readField_mono extra h2,
              readField_mono extra h3, if_neg hk2, hs1, hs2, hs3, ht1, ht2, ht3,
              hm1, hm2, hm3]
            exact h
          · simp at h

theorem parse_bytes_gt8 {decoded : List Nat} {info : CreateTokenInfo}
    (h : parse_bytes decoded = .ok info) : decoded.length > 8 := by
  unfold parse_bytes at h
  by_cases h8 : decoded.length > 8
  · exact h8
  · rw [if_neg h8] at h
    have := parseFields_ok_len h
    omega

/-! ## The log correlator (`parse_instruction`, src/main.rs 149-216)

The Rust loop keeps `current_instruction`, `program_data`, `invoke_depth`,
`last_data_len` and pushes decoded events as top-level invocations close.
The embedding runs the same loop but records the `(kind, payload)` pairs
handed to the decode stage (`captures`), and applies the pure decode stage
afterwards; since `parse_create_token_data` is pure, this composition is
observably identical to the interleaved Rust loop.  `invoke_depth` is
`Nat`: the decrement only runs behind the `invoke_depth == 0` continue, so
the Rust `i32` never goes negative. -/

def PUMPFUN_PROGRAM_ID : String := "6EF8rrecthR5Dkzon8Nwu78hRvfCKubJ14M5uBEwF6P"

/-- `format!("Program {} invoke", PUMPFUN_PROGRAM_ID)` -/
def invokeTag : String := "Program " ++ PUMPFUN_PROGRAM_ID ++ " invoke"

/-- `format!("Program {} success", PUMPFUN_PROGRAM_ID)` -/
def successTag : String := "Program " ++ PUMPFUN_PROGRAM_ID ++ " success"

def instructionTag : String := "Program log: Instruction:"

def dataTag : String := "Program data: "

structure CorrState where
  current_instruction : Option String
  program_data : String
  invoke_depth : Nat
  last_data_len : Nat
  captures : List (String × String)
  deriving DecidableEq, Repr

def initState : CorrState := ⟨none, "", 0, 0, []⟩

/-- One iteration of the `for log in logs` loop of `parse_instruction`. -/
def corrStep (st : CorrState) (log : String) : CorrState :=
  if containsStr log invokeTag = true then
    let st := { st with invoke_depth := st.invoke_depth + 1 }
    if st.invoke_depth = 1 then
      { st with current_instruction := none, program_data := "", last_data_len := 0 }
    else st
  else if st.invoke_depth = 0 then st
  else if st.invoke_depth = 1 ∧ containsStr log instructionTag = true then
    if containsStr log "Create" = true then { st with current_instruction := some "create" }
    else if containsStr log "Buy" = true ∨ containsStr log "Sell" = true then
      { st with current_instruction := some "trade" }
    else st
  else
    let st :=
      if startsWithStr log dataTag = true then
        let data := trimStartMatchesStr log dataTag
        if rustLen data > st.last_data_len then
          { st with program_data := data, last_data_len := rustLen data }
        else st
      else st
    if containsStr log successTag = true then
      let st := { st with invoke_depth := st.invoke_depth - 1 }
      if st.invoke_depth = 0 then
        match st.current_instruction with
        | some kind =>
          if st.program_data = "" then st
          else { st with captures := st.captures ++ [(kind, st.program_data)] }
        | none => st
      else st
    else st

/-- The `(kind, payload)` pairs the correlator hands to the decode stage. -/
def captures (logs : List String) : List (String × String) :=
  (logs.foldl corrStep initState).captures

/-- The decode stage: for each captured pair, `"create"` payloads are
decoded and pushed when decoding succeeds (`if let Ok(..)`); other kinds
are dropped (`_ => {}`).  A decoder panic would propagate (`.error`). -/
def decodeCaptures : List (String × String) → Except Unit (List CreateTokenInfo)
  | [] => .ok []
  | (kind, data) :: rest =>
    if kind = "create" then
      match parse_create_token_data data with
      | .ok token_info =>
        match decodeCaptures rest with
        | .ok l => .ok (token_info :: l)
        | .error e => .error e
      | .err _ => decodeCaptures rest
      | .panicked => .error ()
    else decodeCaptures rest

/-- Model of `parse_instruction` (main.rs 149-216).  The Rust function
returns `anyhow::Result`; its only (hypothetical) failure mode is a panic
propagating out of `parse_create_token_data`, modelled as `.error ()`. -/
def parse_instruction (logs : List String) : Except Unit (List CreateTokenInfo) :=
  decodeCaptures (captures logs)

instance : DecidableEq (Except Unit (List CreateTokenInfo)) := fun x y =>
  match x, y with
  | .ok a, .ok b =>
    if h : a = b then .isTrue (by rw [h]) else .isFalse (fun hc => by
      injection hc with hc2
      exact h hc2)
  | .error a, .error b => .isTrue (by cases a; cases b; rfl)
  | .ok _, .error _ => .isFalse (fun h => Except.noConfusion h)
  | .error _, .ok _ => .isFalse (fun h => Except.noConfusion h)

/-! ## Decoder claim theorems -/

/-- The decoder never hits a panicking branch for any input string. -/
theorem parse_never_panics (s : String) : parse_create_token_data s ≠ .panicked := by
  unfold parse_create_token_data
  cases hb : b64Decode s.data with
  | none => simp
  | some decoded =>
    have hlt := b64Decode_bytes_lt s.data decoded hb
    unfold parse_bytes
    exact parseFields_no_panic decoded hlt _

/-- C2: Totality of the decoder — for every input string,
`parse_create_token_data` terminates without panicking and returns either a
fully-populated event or an error value; the unguarded slice in `read_u32`,
the three `Pubkey::from_str(..).unwrap()` calls, and the cursor arithmetic
never reach a panicking branch. -/
theorem decoder_total (s : String) :
    (∃ info, parse_create_token_data s = .ok info) ∨
    (∃ e, parse_create_token_data s = .err e) := by
  cases hp : parse_create_token_data s with
  | ok info => exact Or.inl ⟨info, rfl⟩
  | err e => exact Or.inr ⟨e, rfl⟩
  | panicked => exact absurd hp (parse_never_panics s)

/-- C8: Short-buffer prefix fallback — for every base64 input whose
decoded buffer is at most 8 bytes (fewer than 8, and the boundary case of
exactly 8), `parse_create_token_data` parses from offset 0 with the
discriminant skip disabled, proceeding through the normal bounds checks,
rather than rejecting the buffer outright. -/
theorem short_buffer_offset_zero (s : String) (decoded : List Nat)
    (hdec : b64Decode s.data = some decoded) (hlen : decoded.length ≤ 8) :
    parse_create_token_data s = parseFields decoded 0 := by
  unfold parse_create_token_data
  rw [hdec]
  show parseFields decoded (if decoded.length > 8 then 8 else 0) = parseFields decoded 0
  rw [if_neg (by omega)]

theorem short_buffer_offset_zero_witness :
    b64Decode "AAAA".data = some [0, 0, 0] ∧ ([0, 0, 0] : List Nat).length ≤ 8 ∧
    parse_create_token_data "AAAA" = parseFields [0, 0, 0] 0 :=
  ⟨by decide, by decide, short_buffer_offset_zero "AAAA" [0, 0, 0] (by decide) (by decide)⟩

/-- C10: Trailing bytes are tolerated — the decoder never requires the
buffer to be fully consumed: whenever a buffer decodes to a complete
event, appending any extra trailing bytes after the third 32-byte key
still returns the same complete event. -/
theorem trailing_bytes_ignored (decoded extra : List Nat) (info : CreateTokenInfo)
    (h : parse_bytes decoded = .ok info) :
    parse_bytes (decoded ++ extra) = .ok info := by
  have h8 := parse_bytes_gt8 h
  unfold parse_bytes at h ⊢
  rw [if_pos h8] at h
  rw [if_pos (by simp; omega)]
  exact parseFields_mono extra h

theorem trailing_bytes_ignored_witness :
    parse_bytes (encodeRecord (List.replicate 8 0) [70, 111, 111] [70] []
        (List.replicate 32 1) (List.replicate 32 0) (List.replicate 32 0))
      = .ok ⟨[70, 111, 111], [70], [], List.replicate 32 1, List.replicate 32 0,
          List.replicate 32 0⟩ ∧
    parse_bytes (encodeRecord (List.replicate 8 0) [70, 111, 111] [70] []
        (List.replicate 32 1) (List.replicate 32 0) (List.replicate 32 0) ++ [7, 7, 7])
      = .ok ⟨[70, 111, 111], [70], [], List.replicate 32 1, List.replicate 32 0,
          List.replicate 32 0⟩ :=
  ⟨by decide,
   trailing_bytes_ignored _ [7, 7, 7] _ (by decide)⟩

/-! ## Correlator infallibility (C9) -/

theorem decodeCaptures_isOk (caps : List (String × String)) :
    ∃ l, decodeCaptures caps = .ok l := by
  induction caps with
  | nil => exact ⟨[], rfl⟩
  | cons kd rest ih =>
    obtain ⟨l, hl⟩ := ih
    obtain ⟨kind, data⟩ := kd
    unfold decodeCaptures
    by_cases hk : kind = "create"
    · rw [if_pos hk]
      cases hp : parse_create_token_data data with
      | ok info => rw [hl]; exact ⟨info :: l, rfl⟩
      | err e => exact ⟨l, hl⟩
      | panicked => exact absurd hp (parse_never_panics data)
    · rw [if_neg hk]
      exact ⟨l, hl⟩

/-- C9: Correlator infallibility — for every sequence of log lines,
including malformed, truncated, or arbitrary ones, `parse_instruction`
returns `Ok` with a possibly-empty list of events; it never returns an
error to the caller and never panics. -/
theorem correlator_infallible (logs : List String) :
    ∃ l, parse_instruction logs = .ok l := by
  unfold parse_instruction
  exact decodeCaptures_isOk (captures logs)

/-! ## Round-trip law (C1) -/

theorem encodeRecord_bytes_lt (disc nameB symbolB uriB mintB bcB userB : List Nat)
    (hdisc : ∀ x ∈ disc, x < 256) (hn : ∀ x ∈ nameB, x < 256)
    (hs : ∀ x ∈ symbolB, x < 256) (hu : ∀ x ∈ uriB, x < 256)
    (hm : ∀ x ∈ mintB, x < 256) (hb : ∀ x ∈ bcB, x < 256)
    (hc : ∀ x ∈ userB, x < 256) :
    ∀ x ∈ encodeRecord disc nameB symbolB uriB mintB bcB userB, x < 256 := by
  intro x hx
  simp only [encodeRecord, List.mem_append] at hx
  rcases hx with ((((((((hx | hx) | hx) | hx) | hx) | hx) | hx) | hx) | hx) | hx
  · exact hdisc x hx
  · exact le32_bytes_lt _ x hx
  · exact hn x hx
  · exact le32_bytes_lt _ x hx
  · exact hs x hx
  · exact le32_bytes_lt _ x hx
  · exact hu x hx
  · exact hm x hx
  · exact hb x hx
  · exact hc x hx

theorem encodeRecord_length (disc nameB symbolB uriB mintB bcB userB : List Nat)
    (hdisc : disc.length = 8) (hm : mintB.length = 32) (hb : bcB.length = 32)
    (hc : userB.length = 32) :
    (encodeRecord disc nameB symbolB uriB mintB bcB userB).length
      = 8 + 4 + nameB.length + 4 + symbolB.length + 4 + uriB.length + 96 := by
  simp [encodeRecord, le32, hdisc, hm, hb, hc]
  omega

theorem parseFields_encodeRecord
    (disc nameB symbolB uriB mintB bcB userB : List Nat)
    (hdisc : disc.length = 8)
    (hnL : nameB.length < 4294967296) (hnV : validUtf8 nameB = true)
    (hsL : symbolB.length < 4294967296) (hsV : validUtf8 symbolB = true)
    (huL : uriB.length < 4294967296) (huV : validUtf8 uriB = true)
    (hmL : mintB.length = 32) (hmB : ∀ x ∈ mintB, x < 256)
    (hbL : bcB.length = 32) (hbB : ∀ x ∈ bcB, x < 256)
    (hcL : userB.length = 32) (hcB : ∀ x ∈ userB, x < 256) :
    parseFields (encodeRecord disc nameB symbolB uriB mintB bcB userB) 8
      = .ok ⟨nameB, symbolB, uriB, mintB, bcB, userB⟩ := by
  have hlen := encodeRecord_length disc nameB symbolB uriB mintB bcB userB hdisc hmL hbL hcL
  have h1 : readField (encodeRecord disc nameB symbolB uriB mintB bcB userB) 8
      = .ok nameB (8 + 4 + nameB.length) :=
    readField_at _ disc nameB
      (le32 symbolB.length ++ symbolB ++ le32 uriB.length ++ uriB ++ mintB ++ bcB ++ userB) 8
      (by simp [encodeRecord, List.append_assoc]) (by omega) hnL hnV
  have h2 : readField (encodeRecord disc nameB symbolB uriB mintB bcB userB)
      (8 + 4 + nameB.length)
      = .ok symbolB (8 + 4 + nameB.length + 4 + symbolB.length) :=
    readField_at _ (disc ++ le32 nameB.length ++ nameB) symbolB
      (le32 uriB.length ++ uriB ++ mintB ++ bcB ++ userB) (8 + 4 + nameB.length)
      (by simp [encodeRecord, List.append_assoc]) (by simp [le32]; omega) hsL hsV
  have h3 : readField (encodeRecord disc nameB symbolB uriB mintB bcB userB)
      (8 + 4 + nameB.length + 4 + symbolB.length)
      = .ok uriB (8 + 4 + nameB.length + 4 + symbolB.length + 4 + uriB.length) :=
    readField_at _
      (disc ++ le32 nameB.length ++ nameB ++ le32 symbolB.length ++ symbolB) uriB
      (mintB ++ bcB ++ userB) (8 + 4 + nameB.length + 4 + symbolB.length)
      (by simp [encodeRecord, List.append_assoc]) (by simp [le32]; omega) huL huV
  have hkc : ¬(8 + 4 + nameB.length + 4 + symbolB.length + 4 + uriB.length + 32 * 3
      > (encodeRecord disc nameB symbolB uriB mintB bcB userB).length) := by
    rw [hlen]
    omega
  have hpre4 : (disc ++ le32 nameB.length ++ nameB ++ le32 symbolB.length ++ symbolB ++
      le32 uriB.length ++ uriB).length
      = 8 + 4 + nameB.length + 4 + symbolB.length + 4 + uriB.length := by
    simp [le32, hdisc]
    omega
  have hsl1 : ((encodeRecord disc nameB symbolB uriB mintB bcB userB).drop
      (8 + 4 + nameB.length + 4 + symbolB.length + 4 + uriB.length)).take 32 = mintB := by
    have hassoc : encodeRecord disc nameB symbolB uriB mintB bcB userB
        = (disc ++ le32 nameB.length ++ nameB ++ le32 symbolB.length ++ symbolB ++
            le32 uriB.length ++ uriB) ++ (mintB ++ (bcB ++ userB)) := by
      simp [encodeRecord, List.append_assoc]
    rw [hassoc, ← hpre4, drop_len_append, ← hmL, take_len_append]
  have hpre5 : (disc ++ le32 nameB.length ++ nameB ++ le32 symbolB.length ++ symbolB ++
      le32 uriB.length ++ uriB ++ mintB).length
      = 8 + 4 + nameB.length + 4 + symbolB.length + 4 + uriB.length + 32 := by
    simp [le32, hdisc, hmL]
    omega
  have hsl2 : ((encodeRecord disc nameB symbolB uriB mintB bcB userB).drop
      (8 + 4 + nameB.length + 4 + symbolB.length + 4 + uriB.length + 32)).take 32 = bcB := by
    have hassoc : encodeRecord disc nameB symbolB uriB mintB bcB userB
        = (disc ++ le32 nameB.length ++ nameB ++ le32 symbolB.length ++ symbolB ++
            le32 uriB.length ++ uriB ++ mintB) ++ (bcB ++ userB) := by
      simp [encodeRecord, List.append_assoc]
    rw [hassoc, ← hpre5, drop_len_append, ← hbL, take_len_append]
  have hpre6 : (disc ++ le32 nameB.length ++ nameB ++ le32 symbolB.length ++ symbolB ++
      le32 uriB.length ++ uriB ++ mintB ++ bcB).length
      = 8 + 4 + nameB.length + 4 + symbolB.length + 4 + uriB.length + 64 := by
    simp [le32, hdisc, hmL, hbL]
    omega
  have hsl3 : ((encodeRecord disc nameB symbolB uriB mintB bcB userB).drop
      (8 + 4 + nameB.length + 4 + symbolB.length + 4 + uriB.length + 64)).take 32 = userB := by
    have hassoc : encodeRecord disc nameB symbolB uriB mintB bcB userB
        = (disc ++ le32 nameB.length ++ nameB ++ le32 symbolB.length ++ symbolB ++
            le32 uriB.length ++ uriB ++ mintB ++ bcB) ++ userB := by
      simp [encodeRecord, List.append_assoc]
    rw [hassoc, ← hpre6, drop_len_append]
    rw [← hcL, List.take_length]
  simp only [parseFields, h1, h2, h3, if_neg hkc, hsl1, hsl2, hsl3,
    pubkeyFromStr_roundtrip mintB hmL hmB, pubkeyFromStr_roundtrip bcB hbL hbB,
    pubkeyFromStr_roundtrip userB hcL hcB]

/-- C1: Round-trip law — for every record with byte fields `name`,
`symbol`, `uri` (valid UTF-8, byte length below `2^32`, including empty)
and three 32-byte keys, encoding it in the documented wire layout (8-byte
discriminant, 4-byte little-endian length before each string, three
32-byte key blocks), base64-encoding the buffer, and decoding with
`parse_create_token_data` succeeds and reproduces the six logical fields
exactly; each key renders as the canonical base-58 string of exactly those
bytes (the rendering decodes back to the same 32 bytes). -/
theorem roundtrip_law (disc nameB symbolB uriB mintB bcB userB : List Nat)
    (hdiscL : disc.length = 8) (hdiscB : ∀ x ∈ disc, x < 256)
    (hnL : nameB.length < 4294967296) (hnV : validUtf8 nameB = true)
    (hnB : ∀ x ∈ nameB, x < 256)
    (hsL : symbolB.length < 4294967296) (hsV : validUtf8 symbolB = true)
    (hsB : ∀ x ∈ symbolB, x < 256)
    (huL : uriB.length < 4294967296) (huV : validUtf8 uriB = true)
    (huB : ∀ x ∈ uriB, x < 256)
    (hmL : mintB.length = 32) (hmB : ∀ x ∈ mintB, x < 256)
    (hbL : bcB.length = 32) (hbB : ∀ x ∈ bcB, x < 256)
    (hcL : userB.length = 32) (hcB : ∀ x ∈ userB, x < 256) :
    parse_create_token_data
        ⟨b64Encode (encodeRecord disc nameB symbolB uriB mintB bcB userB)⟩
      = .ok ⟨nameB, symbolB, uriB, mintB, bcB, userB⟩
    ∧ bs58Decode (pubkeyDisplay mintB).data = some mintB
    ∧ bs58Decode (pubkeyDisplay bcB).data = some bcB
    ∧ bs58Decode (pubkeyDisplay userB).data = some userB := by
  have hbytes := encodeRecord_bytes_lt disc nameB symbolB uriB mintB bcB userB
    hdiscB hnB hsB huB hmB hbB hcB
  have hlen := encodeRecord_length disc nameB symbolB uriB mintB bcB userB hdiscL hmL hbL hcL
  refine ⟨?_, bs58_roundtrip mintB hmB, bs58_roundtrip bcB hbB, bs58_roundtrip userB hcB⟩
  unfold parse_create_token_data
  rw [show (String.mk (b64Encode (encodeRecord disc nameB symbolB uriB mintB bcB userB))).data
      = b64Encode (encodeRecord disc nameB symbolB uriB mintB bcB userB) from rfl]
  rw [b64_roundtrip _ hbytes]
  show parseFields _ (if (encodeRecord disc nameB symbolB uriB mintB bcB userB).length > 8
      then 8 else 0) = _
  rw [if_pos (by rw [hlen]; omega)]
  exact parseFields_encodeRecord disc nameB symbolB uriB mintB bcB userB hdiscL
    hnL hnV hsL hsV huL huV hmL hmB hbL hbB hcL hcB

theorem roundtrip_law_witness :
    parse_create_token_data
        ⟨b64Encode (encodeRecord (List.replicate 8 3) [70, 111, 111] [206, 169] []
          (List.replicate 32 1) (List.replicate 32 0) (List.range 32))⟩
      = .ok ⟨[70, 111, 111], [206, 169], [], List.replicate 32 1, List.replicate 32 0,
          List.range 32⟩
    ∧ bs58Decode (pubkeyDisplay (List.replicate 32 1)).data = some (List.replicate 32 1)
    ∧ bs58Decode (pubkeyDisplay (List.replicate 32 0)).data = some (List.replicate 32 0)
    ∧ bs58Decode (pubkeyDisplay (List.range 32)).data = some (List.range 32) :=
  roundtrip_law (List.replicate 8 3) [70, 111, 111] [206, 169] []
    (List.replicate 32 1) (List.replicate 32 0) (List.range 32)
    (by decide) (by decide) (by decide) (by decide) (by decide) (by decide) (by decide)
    (by decide) (by decide) (by decide) (by decide) (by decide) (by decide) (by decide)
    (by decide) (by decide) (by decide)

/-! ## Truncation tagging (C4) -/

theorem take_len_add {α : Type} (x y : List α) (k : Nat) :
    (x ++ y).take (x.length + k) = x ++ y.take k := by
  rw [take_append_big x y (x.length + k) (by omega), Nat.add_sub_cancel_left]

theorem parse_bytes_skip8 {decoded : List Nat} (h : decoded.length > 8) :
    parse_bytes decoded = parseFields decoded 8 := by
  unfold parse_bytes
  rw [if_pos h]

theorem readField_shortLen {decoded : List Nat} {cursor : Nat}
    (h : decoded.length < cursor + 4) : readField decoded cursor = .shortLen := by
  unfold readField
  rw [if_pos (by omega)]

theorem readField_shortData {decoded : List Nat} {cursor k : Nat}
    (hread : read_u32 (decoded.drop cursor) = some k)
    (h4 : cursor + 4 ≤ decoded.length)
    (hshort : decoded.length < cursor + 4 + k) : readField decoded cursor = .shortData := by
  simp only [readField, hread]
  rw [if_neg (by omega), if_pos (by omega)]

/-- C4 counterexample: the seven-boundary error mapping fails on a
well-formed buffer whose `name` is empty.  The buffer below encodes
`name = ""`, `symbol = "a"`, `uri = "b"` and three all-zero keys; the
name-bytes boundary sits at offset 12, so ending one byte short of it is
the 11-byte prefix — which the decoder rejects as "Data too short for name
length" (the name-*length* tag), not the name tag the claim requires. -/
theorem truncation_tagging_cex :
    parse_bytes ((encodeRecord (List.replicate 8 0) [] [97] [98] (List.replicate 32 0)
        (List.replicate 32 0) (List.replicate 32 0)).take 11)
      = .err .nameLen
    ∧ DecodeErr.nameLen ≠ DecodeErr.name :=
  ⟨by decide, by decide⟩

/-- C4 amended: for every well-formed encoded creation buffer whose
`name`, `symbol` and `uri` are each at least one byte long (so the seven
boundaries are distinct), truncating the buffer to end one byte short of
each of the seven boundaries — name-length (offset 11), name-bytes
(11 + |name|), symbol-length (15 + |name|), symbol-bytes, uri-length,
uri-bytes, key-block — yields the truncation error tagged with the
corresponding field, never a panic and never a decoded event. -/
theorem truncation_tagging
    (disc nameB symbolB uriB mintB bcB userB : List Nat)
    (hdiscL : disc.length = 8)
    (hnL : nameB.length < 4294967296) (hnV : validUtf8 nameB = true)
    (hn1 : 1 ≤ nameB.length)
    (hsL : symbolB.length < 4294967296) (hsV : validUtf8 symbolB = true)
    (hs1 : 1 ≤ symbolB.length)
    (huL : uriB.length < 4294967296) (huV : validUtf8 uriB = true)
    (hu1 : 1 ≤ uriB.length)
    (hmL : mintB.length = 32) (hbL : bcB.length = 32) (hcL : userB.length = 32) :
    parse_bytes ((encodeRecord disc nameB symbolB uriB mintB bcB userB).take 11)
      = .err .nameLen
    ∧ parse_bytes ((encodeRecord disc nameB symbolB uriB mintB bcB userB).take
        (11 + nameB.length)) = .err .name
    ∧ parse_bytes ((encodeRecord disc nameB symbolB uriB mintB bcB userB).take
        (15 + nameB.length)) = .err .symbolLen
    ∧ parse_bytes ((encodeRecord disc nameB symbolB uriB mintB bcB userB).take
        (15 + nameB.length + symbolB.length)) = .err .symbol
    ∧ parse_bytes ((encodeRecord disc nameB symbolB uriB mintB bcB userB).take
        (19 + nameB.length + symbolB.length)) = .err .uriLen
    ∧ parse_bytes ((encodeRecord disc nameB symbolB uriB mintB bcB userB).take
        (19 + nameB.length + symbolB.length + uriB.length)) = .err .uri
    ∧ parse_bytes ((encodeRecord disc nameB symbolB uriB mintB bcB userB).take
        (115 + nameB.length + symbolB.length + uriB.length)) = .err .keys := by
  have hlen := encodeRecord_length disc nameB symbolB uriB mintB bcB userB hdiscL hmL hbL hcL
  -- right-associated views of the buffer
  have hview1 : encodeRecord disc nameB symbolB uriB mintB bcB userB
      = disc ++ (le32 nameB.length ++ (nameB ++ (le32 symbolB.length ++ (symbolB ++
          (le32 uriB.length ++ (uriB ++ (mintB ++ (bcB ++ userB)))))))) := by
    simp [encodeRecord, List.append_assoc]
  have htk : ∀ p, p ≤ (encodeRecord disc nameB symbolB uriB mintB bcB userB).length →
      ((encodeRecord disc nameB symbolB uriB mintB bcB userB).take p).length = p := by
    intro p hp
    simp [List.length_take]
    omega
  -- 1: one short of the name-length boundary
  have t1 : parse_bytes ((encodeRecord disc nameB symbolB uriB mintB bcB userB).take 11)
      = .err .nameLen := by
    have hl11 := htk 11 (by omega)
    have e1 : readField ((encodeRecord disc nameB symbolB uriB mintB bcB userB).take 11) 8
        = .shortLen := readField_shortLen (by omega)
    rw [parse_bytes_skip8 (by omega)]
    simp only [parseFields, e1]
  -- 2: one short of the name-bytes boundary (11 + |name| = 12 + |name| - 1)
  have t2 : parse_bytes ((encodeRecord disc nameB symbolB uriB mintB bcB userB).take
      (11 + nameB.length)) = .err .name := by
    have hlp := htk (11 + nameB.length) (by omega)
    have hshape : (encodeRecord disc nameB symbolB uriB mintB bcB userB).take
        (11 + nameB.length)
        = disc ++ (le32 nameB.length ++
            ((nameB ++ (le32 symbolB.length ++ (symbolB ++ (le32 uriB.length ++ (uriB ++
              (mintB ++ (bcB ++ userB))))))).take (nameB.length - 1))) := by
      rw [hview1]
      rw [show 11 + nameB.length = disc.length + (3 + nameB.length) by omega, take_len_add]
      rw [show 3 + nameB.length = (le32 nameB.length).length + (nameB.length - 1) by
        simp only [le32_length]; omega, take_len_add]
    have hdrop : ((encodeRecord disc nameB symbolB uriB mintB bcB userB).take
        (11 + nameB.length)).drop 8
        = le32 nameB.length ++
            ((nameB ++ (le32 symbolB.length ++ (symbolB ++ (le32 uriB.length ++ (uriB ++
              (mintB ++ (bcB ++ userB))))))).take (nameB.length - 1)) := by
      rw [hshape, ← hdiscL]
      exact drop_len_append _ _
    have e2 : readField ((encodeRecord disc nameB symbolB uriB mintB bcB userB).take
        (11 + nameB.length)) 8 = .shortData :=
      readField_shortData (by rw [hdrop]; exact read_u32_le32 _ hnL _)
        (by omega) (by omega)
    rw [parse_bytes_skip8 (by omega)]
    simp only [parseFields, e2]
  -- 3: one short of the symbol-length boundary
  have t3 : parse_bytes ((encodeRecord disc nameB symbolB uriB mintB bcB userB).take
      (15 + nameB.length)) = .err .symbolLen := by
    have hlp := htk (15 + nameB.length) (by omega)
    have hshape : (encodeRecord disc nameB symbolB uriB mintB bcB userB).take
        (15 + nameB.length)
        = disc ++ le32 nameB.length ++ nameB ++
            ((le32 symbolB.length ++ (symbolB ++ (le32 uriB.length ++ (uriB ++
              (mintB ++ (bcB ++ userB)))))).take 3) := by
      rw [hview1]
      rw [show 15 + nameB.length = disc.length + (7 + nameB.length) by omega, take_len_add]
      rw [show 7 + nameB.length = (le32 nameB.length).length + (3 + nameB.length) by
        simp only [le32_length]; omega, take_len_add]
      rw [show 3 + nameB.length = nameB.length + 3 by omega, take_len_add]
      simp [List.append_assoc]
    have h1 : readField ((encodeRecord disc nameB symbolB uriB mintB bcB userB).take
        (15 + nameB.length)) 8 = .ok nameB (8 + 4 + nameB.length) :=
      readField_at _ disc nameB _ 8 hshape (by omega) hnL hnV
    have e3 : readField ((encodeRecord disc nameB symbolB uriB mintB bcB userB).take
        (15 + nameB.length)) (8 + 4 + nameB.length) = .shortLen :=
      readField_shortLen (by omega)
    rw [parse_bytes_skip8 (by omega)]
    simp only [parseFields, h1, e3]
  -- 4: one short of the symbol-bytes boundary
  have t4 : parse_bytes ((encodeRecord disc nameB symbolB uriB mintB bcB userB).take
      (15 + nameB.length + symbolB.length)) = .err .symbol := by
    have hlp := htk (15 + nameB.length + symbolB.length) (by omega)
    have hshape : (encodeRecord disc nameB symbolB uriB mintB bcB userB).take
        (15 + nameB.length + symbolB.length)
        = disc ++ le32 nameB.length ++ nameB ++
            (le32 symbolB.length ++
              ((symbolB ++ (le32 uriB.length ++ (uriB ++ (mintB ++ (bcB ++
                userB))))).take (symbolB.length - 1))) := by
      rw [hview1]
      rw [show 15 + nameB.length + symbolB.length
          = disc.length + (7 + nameB.length + symbolB.length) by omega, take_len_add]
      rw [show 7 + nameB.length + symbolB.length
          = (le32 nameB.length).length + (3 + nameB.length + symbolB.length) by
        simp only [le32_length]; omega, take_len_add]
      rw [show 3 + nameB.length + symbolB.length
          = nameB.length + (3 + symbolB.length) by omega, take_len_add]
      rw [show 3 + symbolB.length
          = (le32 symbolB.length).length + (symbolB.length - 1) by simp only [le32_length]; omega,
        take_len_add]
      simp [List.append_assoc]
    have h1 : readField ((encodeRecord disc nameB symbolB uriB mintB bcB userB).take
        (15 + nameB.length + symbolB.length)) 8 = .ok nameB (8 + 4 + nameB.length) :=
      readField_at _ disc nameB _ 8 (by rw [hshape]; try simp [List.append_assoc])
        (by omega) hnL hnV
    have hpre2len : (disc ++ le32 nameB.length ++ nameB).length = 8 + 4 + nameB.length := by
      simp [le32, hdiscL]
      omega
    have hdrop : ((encodeRecord disc nameB symbolB uriB mintB bcB userB).take
        (15 + nameB.length + symbolB.length)).drop (8 + 4 + nameB.length)
        = le32 symbolB.length ++
            ((symbolB ++ (le32 uriB.length ++ (uriB ++ (mintB ++ (bcB ++
              userB))))).take (symbolB.length - 1)) := by
      rw [hshape]
      rw [show disc ++ le32 nameB.length ++ nameB ++
            (le32 symbolB.length ++
              ((symbolB ++ (le32 uriB.length ++ (uriB ++ (mintB ++ (bcB ++
                userB))))).take (symbolB.length - 1)))
          = (disc ++ le32 nameB.length ++ nameB) ++
            (le32 symbolB.length ++
              ((symbolB ++ (le32 uriB.length ++ (uriB ++ (mintB ++ (bcB ++
                userB))))).take (symbolB.length - 1))) by simp [List.append_assoc]]
      rw [← hpre2len]
      exact drop_len_append _ _
    have e4 : readField ((encodeRecord disc nameB symbolB uriB mintB bcB userB).take
        (15 + nameB.length + symbolB.length)) (8 + 4 + nameB.length) = .shortData :=
      readField_shortData (by rw [hdrop]; exact read_u32_le32 _ hsL _)
        (by omega) (by omega)
    rw [parse_bytes_skip8 (by omega)]
    simp only [parseFields, h1, e4]
  -- 5: one short of the uri-length boundary
  have t5 : parse_bytes ((encodeRecord disc nameB symbolB uriB mintB bcB userB).take
      (19 + nameB.length + symbolB.length)) = .err .uriLen := by
    have hlp := htk (19 + nameB.length + symbolB.length) (by omega)
    have hshape : (encodeRecord disc nameB symbolB uriB mintB bcB userB).take
        (19 + nameB.length + symbolB.length)
        = disc ++ le32 nameB.length ++ nameB ++ le32 symbolB.length ++ symbolB ++
            ((le32 uriB.length ++ (uriB ++ (mintB ++ (bcB ++ userB)))).take 3) := by
      rw [hview1]
      rw [show 19 + nameB.length + symbolB.length
          = disc.length + (11 + nameB.length + symbolB.length) by omega, take_len_add]
      rw [show 11 + nameB.length + symbolB.length
          = (le32 nameB.length).length + (7 + nameB.length + symbolB.length) by
        simp only [le32_length]; omega, take_len_add]
      rw [show 7 + nameB.length + symbolB.length
          = nameB.length + (7 + symbolB.length) by omega, take_len_add]
      rw [show 7 + symbolB.length
          = (le32 symbolB.length).length + (3 + symbolB.length) by simp only [le32_length]; omega,
        take_len_add]
      rw [show 3 + symbolB.length = symbolB.length + 3 by omega, take_len_add]
      simp [List.append_assoc]
    have h1 : readField ((encodeRecord disc nameB symbolB uriB mintB bcB userB).take
        (19 + nameB.length + symbolB.length)) 8 = .ok nameB (8 + 4 + nameB.length) :=
      readField_at _ disc nameB
        (le32 symbolB.length ++ symbolB ++
          ((le32 uriB.length ++ (uriB ++ (mintB ++ (bcB ++ userB)))).take 3)) 8
        (by rw [hshape]; try simp [List.append_assoc])
        (by omega) hnL hnV
    have h2 : readField ((encodeRecord disc nameB symbolB uriB mintB bcB userB).take
        (19 + nameB.length + symbolB.length)) (8 + 4 + nameB.length)
        = .ok symbolB (8 + 4 + nameB.length + 4 + symbolB.length) :=
      readField_at _ (disc ++ le32 nameB.length ++ nameB) symbolB
        ((le32 uriB.length ++ (uriB ++ (mintB ++ (bcB ++ userB)))).take 3)
        (8 + 4 + nameB.length) (by rw [hshape]; try simp [List.append_assoc])
        (by simp [le32, hdiscL]; omega) hsL hsV
    have e5 : readField ((encodeRecord disc nameB symbolB uriB mintB bcB userB).take
        (19 + nameB.length + symbolB.length))
        (8 + 4 + nameB.length + 4 + symbolB.length) = .shortLen :=
      readField_shortLen (by omega)
    rw [parse_bytes_skip8 (by omega)]
    simp only [parseFields, h1, h2, e5]
  -- 6: one short of the uri-bytes boundary
  have t6 : parse_bytes ((encodeRecord disc nameB symbolB uriB mintB bcB userB).take
      (19 + nameB.length + symbolB.length + uriB.length)) = .err .uri := by
    have hlp := htk (19 + nameB.length + symbolB.length + uriB.length) (by omega)
    have hshape : (encodeRecord disc nameB symbolB uriB mintB bcB userB).take
        (19 + nameB.length + symbolB.length + uriB.length)
        = disc ++ le32 nameB.length ++ nameB ++ le32 symbolB.length ++ symbolB ++
            (le32 uriB.length ++
              ((uriB ++ (mintB ++ (bcB ++ userB))).take (uriB.length - 1))) := by
      rw [hview1]
      rw [show 19 + nameB.length + symbolB.length + uriB.length
          = disc.length + (11 + nameB.length + symbolB.length + uriB.length) by omega,
        take_len_add]
      rw [show 11 + nameB.length + symbolB.length + uriB.length
          = (le32 nameB.length).length + (7 + nameB.length + symbolB.length + uriB.length)
          by simp only [le32_length]; omega, take_len_add]
      rw [show 7 + nameB.length + symbolB.length + uriB.length
          = nameB.length + (7 + symbolB.length + uriB.length) by omega, take_len_add]
      rw [show 7 + symbolB.length + uriB.length
          = (le32 symbolB.length).length + (3 + symbolB.length + uriB.length) by
        simp only [le32_length]; omega, take_len_add]
      rw [show 3 + symbolB.length + uriB.length
          = symbolB.length + (3 + uriB.length) by omega, take_len_add]
      rw [show 3 + uriB.length = (le32 uriB.length).length + (uriB.length - 1) by
        simp only [le32_length]; omega, take_len_add]
      simp [List.append_assoc]
    have h1 : readField ((encodeRecord disc nameB symbolB uriB mintB bcB userB).take
        (19 + nameB.length + symbolB.length + uriB.length)) 8
        = .ok nameB (8 + 4 + nameB.length) :=
      readField_at _ disc nameB
        (le32 symbolB.length ++ symbolB ++ le32 uriB.length ++
          ((uriB ++ (mintB ++ (bcB ++ userB))).take (uriB.length - 1))) 8
        (by rw [hshape]; try simp [List.append_assoc])
        (by omega) hnL hnV
    have h2 : readField ((encodeRecord disc nameB symbolB uriB mintB bcB userB).take
        (19 + nameB.length + symbolB.length + uriB.length)) (8 + 4 + nameB.length)
        = .ok symbolB (8 + 4 + nameB.length + 4 + symbolB.length) :=
      readField_at _ (disc ++ le32 nameB.length ++ nameB) symbolB
        (le32 uriB.length ++ ((uriB ++ (mintB ++ (bcB ++ userB))).take (uriB.length - 1)))
        (8 + 4 + nameB.length) (by rw [hshape]; try simp [List.append_assoc])
        (by simp [le32, hdiscL]; omega) hsL hsV
    have hpre3len : (disc ++ le32 nameB.length ++ nameB ++ le32 symbolB.length ++
        symbolB).length = 8 + 4 + nameB.length + 4 + symbolB.length := by
      simp [le32, hdiscL]
      omega
    have hdrop : ((encodeRecord disc nameB symbolB uriB mintB bcB userB).take
        (19 + nameB.length + symbolB.length + uriB.length)).drop
          (8 + 4 + nameB.length + 4 + symbolB.length)
        = le32 uriB.length ++
            ((uriB ++ (mintB ++ (bcB ++ userB))).take (uriB.length - 1)) := by
      rw [hshape]
      rw [show disc ++ le32 nameB.length ++ nameB ++ le32 symbolB.length ++ symbolB ++
            (le32 uriB.length ++
              ((uriB ++ (mintB ++ (bcB ++ userB))).take (uriB.length - 1)))
          = (disc ++ le32 nameB.length ++ nameB ++ le32 symbolB.length ++ symbolB) ++
            (le32 uriB.length ++
              ((uriB ++ (mintB ++ (bcB ++ userB))).take (uriB.length - 1))) by
        simp [List.append_assoc]]
      rw [← hpre3len]
      exact drop_len_append _ _
    have e6 : readField ((encodeRecord disc nameB symbolB uriB mintB bcB userB).take
        (19 + nameB.length + symbolB.length + uriB.length))
        (8 + 4 + nameB.length + 4 + symbolB.length) = .shortData :=
      readField_shortData (by rw [hdrop]; exact read_u32_le32 _ huL _)
        (by omega) (by omega)
    rw [parse_bytes_skip8 (by omega)]
    simp only [parseFields, h1, h2, e6]
  -- 7: one short of the key block end
  have t7 : parse_bytes ((encodeRecord disc nameB symbolB uriB mintB bcB userB).take
      (115 + nameB.length + symbolB.length + uriB.length)) = .err .keys := by
    have hlp := htk (115 + nameB.length + symbolB.length + uriB.length) (by omega)
    have hshape : (encodeRecord disc nameB symbolB uriB mintB bcB userB).take
        (115 + nameB.length + symbolB.length + uriB.length)
        = disc ++ le32 nameB.length ++ nameB ++ le32 symbolB.length ++ symbolB ++
            le32 uriB.length ++ uriB ++ ((mintB ++ (bcB ++ userB)).take 95) := by
      rw [hview1]
      rw [show 115 + nameB.length + symbolB.length + uriB.length
          = disc.length + (107 + nameB.length + symbolB.length + uriB.length) by omega,
        take_len_add]
      rw [show 107 + nameB.length + symbolB.length + uriB.length
          = (le32 nameB.length).length +
              (103 + nameB.length + symbolB.length + uriB.length) by simp only [le32_length]; omega,
        take_len_add]
      rw [show 103 + nameB.length + symbolB.length + uriB.length
          = nameB.length + (103 + symbolB.length + uriB.length) by omega, take_len_add]
      rw [show 103 + symbolB.length + uriB.length
          = (le32 symbolB.length).length + (99 + symbolB.length + uriB.length) by
        simp only [le32_length]; omega, take_len_add]
      rw [show 99 + symbolB.length + uriB.length
          = symbolB.length + (99 + uriB.length) by omega, take_len_add]
      rw [show 99 + uriB.length = (le32 uriB.length).length + (95 + uriB.length) by
        simp only [le32_length]; omega, take_len_add]
      rw [show 95 + uriB.length = uriB.length + 95 by omega, take_len_add]
      simp [List.append_assoc]
    have h1 : readField ((encodeRecord disc nameB symbolB uriB mintB bcB userB).take
        (115 + nameB.length + symbolB.length + uriB.length)) 8
        = .ok nameB (8 + 4 + nameB.length) :=
      readField_at _ disc nameB
        (le32 symbolB.length ++ symbolB ++ le32 uriB.length ++ uriB ++
          ((mintB ++ (bcB ++ userB)).take 95)) 8
        (by rw [hshape]; try simp [List.append_assoc])
        (by omega) hnL hnV
    have h2 : readField ((encodeRecord disc nameB symbolB uriB mintB bcB userB).take
        (115 + nameB.length + symbolB.length + uriB.length)) (8 + 4 + nameB.length)
        = .ok symbolB (8 + 4 + nameB.length + 4 + symbolB.length) :=
      readField_at _ (disc ++ le32 nameB.length ++ nameB) symbolB
        (le32 uriB.length ++ uriB ++ ((mintB ++ (bcB ++ userB)).take 95))
        (8 + 4 + nameB.length) (by rw [hshape]; try simp [List.append_assoc])
        (by simp [le32, hdiscL]; omega) hsL hsV
    have h3 : readField ((encodeRecord disc nameB symbolB uriB mintB bcB userB).take
        (115 + nameB.length + symbolB.length + uriB.length))
        (8 + 4 + nameB.length + 4 + symbolB.length)
        = .ok uriB (8 + 4 + nameB.length + 4 + symbolB.length + 4 + uriB.length) :=
      readField_at _
        (disc ++ le32 nameB.length ++ nameB ++ le32 symbolB.length ++ symbolB) uriB
        ((mintB ++ (bcB ++ userB)).take 95)
        (8 + 4 + nameB.length + 4 + symbolB.length)
        (by rw [hshape]; try simp [List.append_assoc])
        (by simp [le32, hdiscL]; omega) huL huV
    rw [parse_bytes_skip8 (by omega)]
    simp only [parseFields, h1, h2, h3]
    rw [if_pos (by omega)]
  exact ⟨t1, t2, t3, t4, t5, t6, t7⟩

theorem truncation_tagging_witness :
    parse_bytes ((encodeRecord (List.replicate 8 0) [97] [98, 99] [100]
        (List.replicate 32 0) (List.replicate 32 0) (List.replicate 32 0)).take 11)
      = .err .nameLen
    ∧ parse_bytes ((encodeRecord (List.replicate 8 0) [97] [98, 99] [100]
        (List.replicate 32 0) (List.replicate 32 0) (List.replicate 32 0)).take
          (11 + ([97] : List Nat).length)) = .err .name
    ∧ parse_bytes ((encodeRecord (List.replicate 8 0) [97] [98, 99] [100]
        (List.replicate 32 0) (List.replicate 32 0) (List.replicate 32 0)).take
          (15 + ([97] : List Nat).length)) = .err .symbolLen
    ∧ parse_bytes ((encodeRecord (List.replicate 8 0) [97] [98, 99] [100]
        (List.replicate 32 0) (List.replicate 32 0) (List.replicate 32 0)).take
          (15 + ([97] : List Nat).length + ([98, 99] : List Nat).length)) = .err .symbol
    ∧ parse_bytes ((encodeRecord (List.replicate 8 0) [97] [98, 99] [100]
        (List.replicate 32 0) (List.replicate 32 0) (List.replicate 32 0)).take
          (19 + ([97] : List Nat).length + ([98, 99] : List Nat).length)) = .err .uriLen
    ∧ parse_bytes ((encodeRecord (List.replicate 8 0) [97] [98, 99] [100]
        (List.replicate 32 0) (List.replicate 32 0) (List.replicate 32 0)).take
          (19 + ([97] : List Nat).length + ([98, 99] : List Nat).length +
            ([100] : List Nat).length)) = .err .uri
    ∧ parse_bytes ((encodeRecord (List.replicate 8 0) [97] [98, 99] [100]
        (List.replicate 32 0) (List.replicate 32 0) (List.replicate 32 0)).take
          (115 + ([97] : List Nat).length + ([98, 99] : List Nat).length +
            ([100] : List Nat).length)) = .err .keys :=
  truncation_tagging (List.replicate 8 0) [97] [98, 99] [100]
    (List.replicate 32 0) (List.replicate 32 0) (List.replicate 32 0)
    (by decide) (by decide) (by decide) (by decide) (by decide) (by decide) (by decide)
    (by decide) (by decide) (by decide) (by decide) (by decide) (by decide)

/-! ## Depth-1-only classification (C6) -/

theorem corrStep_else_kind (st : CorrState) (l : String)
    (hI : ¬containsStr l invokeTag = true) (h0 : ¬st.invoke_depth = 0)
    (hM : ¬(st.invoke_depth = 1 ∧ containsStr l instructionTag = true)) :
    (corrStep st l).current_instruction = st.current_instruction := by
  unfold corrStep
  rw [if_neg hI, if_neg h0, if_neg hM]
  dsimp only
  repeat' split
  all_goals rfl

/-- C6: Depth-1-only classification — instruction-marker lines encountered
at depth ≥ 2 never change the pending instruction kind; whenever a step
changes the kind to a non-`none` value, the state was at depth exactly 1
and the line contained the instruction-marker pattern (so the kind decided
at depth 1 is the one in effect when the invocation closes). -/
theorem depth1_only_classification (st : CorrState) (l : String) :
    (2 ≤ st.invoke_depth →
      (corrStep st l).current_instruction = st.current_instruction)
    ∧ ((corrStep st l).current_instruction ≠ st.current_instruction →
        (corrStep st l).current_instruction = none ∨
        (st.invoke_depth = 1 ∧ containsStr l instructionTag = true)) := by
  by_cases hI : containsStr l invokeTag = true
  · by_cases hd1 : st.invoke_depth + 1 = 1
    · have hci : (corrStep st l).current_instruction = none := by
        simp [corrStep, hI, hd1]
      constructor
      · intro h2
        exact absurd h2 (by omega)
      · intro _
        exact Or.inl hci
    · have hci : (corrStep st l).current_instruction = st.current_instruction := by
        simp [corrStep, hI, hd1]
      exact ⟨fun _ => hci, fun hne => absurd hci hne⟩
  · by_cases h0 : st.invoke_depth = 0
    · have hci : (corrStep st l).current_instruction = st.current_instruction := by
        simp [corrStep, hI, h0]
      exact ⟨fun _ => hci, fun hne => absurd hci hne⟩
    · by_cases hM : st.invoke_depth = 1 ∧ containsStr l instructionTag = true
      · constructor
        · intro h2
          exact absurd h2 (by omega)
        · intro _
          exact Or.inr hM
      · have hci := corrStep_else_kind st l hI h0 hM
        exact ⟨fun _ => hci, fun hne => absurd hci hne⟩

theorem depth1_only_classification_witness :
    (corrStep ⟨some "trade", "x", 2, 1, []⟩
        "Program log: Instruction: Create").current_instruction = some "trade" :=
  (depth1_only_classification ⟨some "trade", "x", 2, 1, []⟩
    "Program log: Instruction: Create").1 (by decide)

/-! ## Scenario lines (spec section 8) and step lemmas -/

def invokeLine : String :=
  "Program 6EF8rrecthR5Dkzon8Nwu78hRvfCKubJ14M5uBEwF6P invoke [1]"

def createLine : String := "Program log: Instruction: Create"

def buyLine : String := "Program log: Instruction: Buy"

def sellLine : String := "Program log: Instruction: Sell"

def successLine : String :=
  "Program 6EF8rrecthR5Dkzon8Nwu78hRvfCKubJ14M5uBEwF6P success"

/-- The code's best-payload selection step: keep the new candidate only
when strictly longer in bytes (`data.len() > last_data_len`). -/
def selStep (acc : String × Nat) (c : String) : String × Nat :=
  if rustLen c > acc.2 then (c, rustLen c) else acc

/-- A data line carrying none of the control patterns: a step on it only
runs the best-payload selection. -/
theorem corrStep_data_lit (ci : Option String) (pd : String) (n : Nat)
    (caps : List (String × String)) (l : String)
    (hI : containsStr l invokeTag = false)
    (hM : containsStr l instructionTag = false)
    (hS : containsStr l successTag = false)
    (hD : startsWithStr l dataTag = true) :
    corrStep ⟨ci, pd, 1, n, caps⟩ l =
      ⟨ci, (selStep (pd, n) (trimStartMatchesStr l dataTag)).1, 1,
        (selStep (pd, n) (trimStartMatchesStr l dataTag)).2, caps⟩ := by
  by_cases hgt : rustLen (trimStartMatchesStr l dataTag) > n
  · simp [corrStep, selStep, hI, hM, hS, hD, hgt]
  · simp [corrStep, selStep, hI, hM, hS, hD, hgt]

/-- The success line closing a depth-1 invocation with kind `some k`:
capture `(k, program_data)` exactly when the payload is non-empty. -/
theorem corrStep_success_some (k pd : String) (n : Nat)
    (caps : List (String × String)) :
    corrStep ⟨some k, pd, 1, n, caps⟩ successLine
      = if pd = "" then ⟨some k, pd, 0, n, caps⟩
        else ⟨some k, pd, 0, n, caps ++ [(k, pd)]⟩ := by
  have sI : containsStr successLine invokeTag = false := by decide
  have sM : containsStr successLine instructionTag = false := by decide
  have sD : startsWithStr successLine dataTag = false := by decide
  have sS : containsStr successLine successTag = true := by decide
  by_cases hpd : pd = ""
  · simp [corrStep, sI, sM, sD, sS, hpd]
  · simp [corrStep, sI, sM, sD, sS, hpd]

/-- Folding plain data lines from a depth-1 state only runs the
best-payload selection over the trimmed payloads. -/
theorem foldl_plain (ds : List String) :
    ∀ (ci : Option String) (pd : String) (n : Nat) (caps : List (String × String)),
      (∀ l ∈ ds, startsWithStr l dataTag = true ∧ containsStr l invokeTag = false ∧
          containsStr l successTag = false ∧ containsStr l instructionTag = false) →
      ds.foldl corrStep ⟨ci, pd, 1, n, caps⟩ =
        ⟨ci, ((ds.map (fun l => trimStartMatchesStr l dataTag)).foldl selStep (pd, n)).1, 1,
          ((ds.map (fun l => trimStartMatchesStr l dataTag)).foldl selStep (pd, n)).2,
          caps⟩ := by
  induction ds with
  | nil =>
    intro ci pd n caps _
    rfl
  | cons l t ih =>
    intro ci pd n caps hp
    obtain ⟨hD, hI, hS, hM⟩ := hp l (by simp)
    rw [List.foldl_cons, corrStep_data_lit ci pd n caps l hI hM hS hD,
      List.map_cons, List.foldl_cons]
    exact ih ci _ _ caps (fun x hx => hp x (by simp [hx]))

/-- The selection fold returns the first-seen candidate of maximal byte
length whenever some candidate beats the initial accumulator. -/
theorem selFold_spec :
    ∀ (cands : List String) (p : String) (n : Nat), n = rustLen p →
      (cands.foldl selStep (p, n) = (p, n) ∧ ∀ c ∈ cands, rustLen c ≤ n)
      ∨ (∃ pre q suf, cands = pre ++ q :: suf ∧
          cands.foldl selStep (p, n) = (q, rustLen q) ∧ n < rustLen q ∧
          (∀ c ∈ pre, rustLen c < rustLen q) ∧
          (∀ c ∈ cands, rustLen c ≤ rustLen q)) := by
  intro cands
  induction cands with
  | nil =>
    intro p n hn
    left
    exact ⟨rfl, by simp⟩
  | cons c t ih =>
    intro p n hn
    by_cases hgt : rustLen c > n
    · have hsel : selStep (p, n) c = (c, rustLen c) := by simp [selStep, hgt]
      rcases ih c (rustLen c) rfl with ⟨heq, hall⟩ | ⟨pre, q, suf, hsplit, heq, hlt, hpre, hall⟩
      · right
        refine ⟨[], c, t, by simp, ?_, by omega, by simp, ?_⟩
        · rw [List.foldl_cons, hsel]
          exact heq
        · intro x hx
          simp at hx
          rcases hx with rfl | hx
          · omega
          · exact hall x hx
      · right
        refine ⟨c :: pre, q, suf, by rw [hsplit, List.cons_append], ?_, by omega, ?_, ?_⟩
        · rw [List.foldl_cons, hsel]
          exact heq
        · intro x hx
          simp at hx
          rcases hx with rfl | hx
          · omega
          · exact hpre x hx
        · intro x hx
          simp at hx
          rcases hx with rfl | hx
          · omega
          · exact hall x hx
    · have hsel : selStep (p, n) c = (p, n) := by simp [selStep, hgt]
      rcases ih p n hn with ⟨heq, hall⟩ | ⟨pre, q, suf, hsplit, heq, hlt, hpre, hall⟩
      · left
        constructor
        · rw [List.foldl_cons, hsel]
          exact heq
        · intro x hx
          simp at hx
          rcases hx with rfl | hx
          · omega
          · exact hall x hx
      · right
        refine ⟨c :: pre, q, suf, by rw [hsplit, List.cons_append], ?_, hlt, ?_, ?_⟩
        · rw [List.foldl_cons, hsel]
          exact heq
        · intro x hx
          simp at hx
          rcases hx with rfl | hx
          · omega
          · exact hpre x hx
        · intro x hx
          simp at hx
          rcases hx with rfl | hx
          · omega
          · exact hall x hx

/-! ## Longest-payload rule (C5) -/

/-- C5 counterexample: the retained candidate is chosen by **byte**
length (`data.len()`), not by character length.  With candidates
"ééé" (3 characters, 6 bytes) then "abcde" (5 characters, 5 bytes),
the code keeps "ééé" even though "abcde" is strictly longer in
characters. -/
theorem longest_payload_rule_cex :
    captures [invokeLine, createLine, "Program data: ééé", "Program data: abcde",
        successLine]
      = [("create", "ééé")]
    ∧ ("ééé" : String).length < ("abcde" : String).length :=
  ⟨by decide, by decide⟩

/-- C5 amended: within one top-level invocation, the candidate retained as
`bestPayload` at closure is the longest one by **byte** length
(`data.len()` in the source is the UTF-8 byte count, not the character
count), and when several candidates have exactly equal byte length the
first-seen one is kept: the capture is a candidate `q` such that every
earlier candidate is strictly shorter in bytes and every candidate is at
most as long as `q` in bytes. -/
theorem longest_payload_rule (ds : List String)
    (hplain : ∀ l ∈ ds, startsWithStr l dataTag = true ∧
        containsStr l invokeTag = false ∧ containsStr l successTag = false ∧
        containsStr l instructionTag = false)
    (hnz : ∃ l ∈ ds, trimStartMatchesStr l dataTag ≠ "") :
    ∃ q pre suf,
      captures ([invokeLine, createLine] ++ ds ++ [successLine]) = [("create", q)] ∧
      ds.map (fun l => trimStartMatchesStr l dataTag) = pre ++ q :: suf ∧
      (∀ c ∈ pre, rustLen c < rustLen q) ∧
      (∀ c ∈ ds.map (fun l => trimStartMatchesStr l dataTag), rustLen c ≤ rustLen q) := by
  have hfold : List.foldl corrStep initState ([invokeLine, createLine] ++ ds ++ [successLine])
      = corrStep (ds.foldl corrStep
          (List.foldl corrStep initState [invokeLine, createLine])) successLine := by
    rw [List.foldl_append, List.foldl_append]
    rfl
  have hst2 : List.foldl corrStep initState [invokeLine, createLine]
      = (⟨some "create", "", 1, 0, []⟩ : CorrState) := by decide
  have hplainfold := foldl_plain ds (some "create") "" 0 [] hplain
  rcases selFold_spec (ds.map (fun l => trimStartMatchesStr l dataTag)) "" 0 rfl with
    ⟨heq, hall⟩ | ⟨pre, q, suf, hsplit, heq, hlt, hpre, hall⟩
  · exfalso
    obtain ⟨l, hl, hne⟩ := hnz
    have hle : rustLen (trimStartMatchesStr l dataTag) ≤ 0 :=
      hall _ (List.mem_map_of_mem _ hl)
    exact hne (rustLen_eq_zero (by omega))
  · refine ⟨q, pre, suf, ?_, hsplit, hpre, hall⟩
    have hqne : ¬q = "" := by
      intro h
      rw [h] at hlt
      exact absurd hlt (by decide)
    unfold captures
    rw [hfold, hst2, hplainfold, heq]
    rw [corrStep_success_some "create" q (rustLen q) []]
    rw [if_neg hqne]
    simp

theorem longest_payload_rule_witness :
    ∃ q pre suf,
      captures ([invokeLine, createLine] ++ ["Program data: aaa", "Program data: bb"] ++
          [successLine]) = [("create", q)] ∧
      (["Program data: aaa", "Program data: bb"].map
          (fun l => trimStartMatchesStr l dataTag)) = pre ++ q :: suf ∧
      (∀ c ∈ pre, rustLen c < rustLen q) ∧
      (∀ c ∈ (["Program data: aaa", "Program data: bb"].map
          (fun l => trimStartMatchesStr l dataTag)), rustLen c ≤ rustLen q) :=
  longest_payload_rule ["Program data: aaa", "Program data: bb"]
    (by decide) (by decide)

/-! ## Single-capture scenario (C3) -/

/-- C3 counterexample: the payload is extracted with
`trim_start_matches("Program data: ")`, which removes **all** leading
repetitions of the prefix.  For the data line `"Program data: <s>"` with
`s = "Program data: AAA"`, the claim requires the captured payload to be
`s` itself, but the code captures `"AAA"`. -/
theorem single_capture_cex :
    captures [invokeLine, createLine, "Program data: Program data: AAA", successLine]
      = [("create", "AAA")]
    ∧ ("AAA" : String) ≠ "Program data: Program data: AAA".drop "Program data: ".length :=
  ⟨by decide, by decide⟩

theorem data_line_startsWith (s : String) :
    startsWithStr ("Program data: " ++ s) dataTag = true := by
  unfold startsWithStr dataTag
  rw [show ("Program data: " ++ s).data = "Program data: ".data ++ s.data from rfl]
  exact hasPre_append _ _

theorem trim_data_line (s : String) :
    trimStartMatchesStr ("Program data: " ++ s) dataTag
      = trimStartMatchesStr s dataTag := by
  unfold trimStartMatchesStr dataTag
  rw [show ("Program data: " ++ s).data = "Program data: ".data ++ s.data from rfl]
  exact congrArg String.mk (trimAll_append _ _ (by decide))

/-- C3 amended: for the single-capture creation scenario — one matched
invoke/success pair, one depth-1 "Create" marker, and one data line
`"Program data: <s>"` carrying no control patterns — the correlator
produces exactly one `(creation, payload)` capture whose payload is `<s>`
with **all** leading repetitions of `"Program data: "` also removed
(Rust `trim_start_matches` strips the prefix repeatedly), provided that
residual content is non-empty (an empty residual yields no capture). -/
theorem single_capture (s : String)
    (hI : containsStr ("Program data: " ++ s) invokeTag = false)
    (hS : containsStr ("Program data: " ++ s) successTag = false)
    (hM : containsStr ("Program data: " ++ s) instructionTag = false)
    (hne : trimStartMatchesStr s dataTag ≠ "") :
    captures [invokeLine, createLine, "Program data: " ++ s, successLine]
      = [("create", trimStartMatchesStr s dataTag)] := by
  have hpos : rustLen (trimStartMatchesStr s dataTag) > 0 := by
    rcases Nat.eq_zero_or_pos (rustLen (trimStartMatchesStr s dataTag)) with h0 | hp
    · exact absurd (rustLen_eq_zero h0) hne
    · exact hp
  show (corrStep (corrStep (corrStep (corrStep initState invokeLine) createLine)
      ("Program data: " ++ s)) successLine).captures = _
  rw [show corrStep (corrStep initState invokeLine) createLine
      = (⟨some "create", "", 1, 0, []⟩ : CorrState) from by decide]
  rw [corrStep_data_lit (some "create") "" 0 [] ("Program data: " ++ s) hI hM hS
    (data_line_startsWith s)]
  rw [trim_data_line s]
  rw [show selStep ("", 0) (trimStartMatchesStr s dataTag)
      = (trimStartMatchesStr s dataTag, rustLen (trimStartMatchesStr s dataTag)) from by
    simp [selStep, hpos]]
  rw [show (⟨some "create",
        (trimStartMatchesStr s dataTag, rustLen (trimStartMatchesStr s dataTag)).1, 1,
        (trimStartMatchesStr s dataTag, rustLen (trimStartMatchesStr s dataTag)).2,
        []⟩ : CorrState)
      = ⟨some "create", trimStartMatchesStr s dataTag, 1,
          rustLen (trimStartMatchesStr s dataTag), []⟩ from rfl]
  rw [corrStep_success_some "create" (trimStartMatchesStr s dataTag)
    (rustLen (trimStartMatchesStr s dataTag)) []]
  rw [if_neg hne]
  simp

theorem single_capture_witness :
    captures [invokeLine, createLine, "Program data: " ++ "xyz", successLine]
      = [("create", trimStartMatchesStr "xyz" dataTag)] :=
  single_capture "xyz" (by decide) (by decide) (by decide) (by decide)

/-! ## Non-creation suppression (C7) -/

theorem decodeCaptures_trade (x : String) :
    decodeCaptures [("trade", x)] = .ok [] := by
  simp [decodeCaptures]

/-- After a depth-1 "trade" classification, no sequence consisting of one
arbitrary line followed by the success line can produce a creation event:
either nothing is captured, or the capture is tagged `"trade"` and dropped
by the decode stage. -/
theorem no_create_after_trade (l : String) :
    decodeCaptures ((corrStep (corrStep (⟨some "trade", "", 1, 0, []⟩ : CorrState) l)
      successLine).captures) = .ok [] := by
  by_cases hI : containsStr l invokeTag = true
  · have h1 : corrStep (⟨some "trade", "", 1, 0, []⟩ : CorrState) l
        = ⟨some "trade", "", 2, 0, []⟩ := by
      simp [corrStep, hI]
    rw [h1]
    decide
  · rw [Bool.not_eq_true] at hI
    by_cases hM : containsStr l instructionTag = true
    · by_cases hC : containsStr l "Create" = true
      · have h1 : corrStep (⟨some "trade", "", 1, 0, []⟩ : CorrState) l
            = ⟨some "create", "", 1, 0, []⟩ := by
          simp [corrStep, hI, hM, hC]
        rw [h1]
        decide
      · by_cases hB : containsStr l "Buy" = true ∨ containsStr l "Sell" = true
        · have h1 : corrStep (⟨some "trade", "", 1, 0, []⟩ : CorrState) l
              = ⟨some "trade", "", 1, 0, []⟩ := by
            simp [corrStep, hI, hM, hC, hB]
          rw [h1]
          decide
        · have h1 : corrStep (⟨some "trade", "", 1, 0, []⟩ : CorrState) l
              = ⟨some "trade", "", 1, 0, []⟩ := by
            simp [corrStep, hI, hM, hC, hB]
          rw [h1]
          decide
    · rw [Bool.not_eq_true] at hM
      by_cases hS : containsStr l successTag = true
      · by_cases hD : startsWithStr l dataTag = true
        · by_cases hgt : rustLen (trimStartMatchesStr l dataTag) > 0
          · have hne : ¬trimStartMatchesStr l dataTag = "" := by
              intro h
              rw [h] at hgt
              exact absurd hgt (by decide)
            have h1 : corrStep (⟨some "trade", "", 1, 0, []⟩ : CorrState) l
                = ⟨some "trade", trimStartMatchesStr l dataTag, 0,
                    rustLen (trimStartMatchesStr l dataTag),
                    [("trade", trimStartMatchesStr l dataTag)]⟩ := by
              simp [corrStep, hI, hM, hS, hD, hgt, hne]
            rw [h1]
            have h2 : corrStep (⟨some "trade", trimStartMatchesStr l dataTag, 0,
                rustLen (trimStartMatchesStr l dataTag),
                [("trade", trimStartMatchesStr l dataTag)]⟩ : CorrState) successLine
                = ⟨some "trade", trimStartMatchesStr l dataTag, 0,
                    rustLen (trimStartMatchesStr l dataTag),
                    [("trade", trimStartMatchesStr l dataTag)]⟩ := by
              have sI : containsStr successLine invokeTag = false := by decide
              simp [corrStep, sI]
            rw [h2]
            exact decodeCaptures_trade _
          · have h1 : corrStep (⟨some "trade", "", 1, 0, []⟩ : CorrState) l
                = ⟨some "trade", "", 0, 0, []⟩ := by
              simp [corrStep, hI, hM, hS, hD, hgt]
            rw [h1]
            decide
        · have h1 : corrStep (⟨some "trade", "", 1, 0, []⟩ : CorrState) l
              = ⟨some "trade", "", 0, 0, []⟩ := by
            simp [corrStep, hI, hM, hS, hD]
          rw [h1]
          decide
      · rw [Bool.not_eq_true] at hS
        by_cases hD : startsWithStr l dataTag = true
        · by_cases hgt : rustLen (trimStartMatchesStr l dataTag) > 0
          · have hne : ¬trimStartMatchesStr l dataTag = "" := by
              intro h
              rw [h] at hgt
              exact absurd hgt (by decide)
            have h1 : corrStep (⟨some "trade", "", 1, 0, []⟩ : CorrState) l
                = ⟨some "trade", trimStartMatchesStr l dataTag, 1,
                    rustLen (trimStartMatchesStr l dataTag), []⟩ := by
              simp [corrStep, hI, hM, hS, hD, hgt]
            rw [h1]
            rw [corrStep_success_some "trade" (trimStartMatchesStr l dataTag)
              (rustLen (trimStartMatchesStr l dataTag)) []]
            rw [if_neg hne]
            exact decodeCaptures_trade _
          · have h1 : corrStep (⟨some "trade", "", 1, 0, []⟩ : CorrState) l
                = ⟨some "trade", "", 1, 0, []⟩ := by
              simp [corrStep, hI, hM, hS, hD, hgt]
            rw [h1]
            decide
        · have h1 : corrStep (⟨some "trade", "", 1, 0, []⟩ : CorrState) l
              = ⟨some "trade", "", 1, 0, []⟩ := by
            simp [corrStep, hI, hM, hS, hD]
          rw [h1]
          decide

/-- C7: Non-creation suppression — in the single-capture scenario with
the depth-1 marker saying "Buy" (or "Sell") instead of "Create",
`parse_instruction` returns zero events for every payload string, even
though the data line is captured during the invocation. -/
theorem non_creation_suppressed (s : String) :
    parse_instruction [invokeLine, buyLine, "Program data: " ++ s, successLine] = .ok []
    ∧ parse_instruction [invokeLine, sellLine, "Program data: " ++ s, successLine]
        = .ok [] := by
  constructor
  · show decodeCaptures ((corrStep (corrStep (corrStep (corrStep initState invokeLine)
        buyLine) ("Program data: " ++ s)) successLine).captures) = .ok []
    rw [show corrStep (corrStep initState invokeLine) buyLine
        = (⟨some "trade", "", 1, 0, []⟩ : CorrState) from by decide]
    exact no_create_after_trade ("Program data: " ++ s)
  · show decodeCaptures ((corrStep (corrStep (corrStep (corrStep initState invokeLine)
        sellLine) ("Program data: " ++ s)) successLine).captures) = .ok []
    rw [show corrStep (corrStep initState invokeLine) sellLine
        = (⟨some "trade", "", 1, 0, []⟩ : CorrState) from by decide]
    exact no_create_after_trade ("Program data: " ++ s)
